import Mathlib

/-!
Verification of the moby subnet pool allocator
(libnetwork/ipamutils/netchunk.go, the NetworkPool in the same package, and
the equivalent ipam.Range/Pool code).

Addresses are modelled as natural numbers below 2^bitlen with explicit
modular arithmetic where the Go code computes in uint32/uint64/uint128.
The bitmap ledger and the uint128/ipbits helper arithmetic are repository
code that is not part of the excerpted sources; they are modelled from the
specification's collaborator contract (see the doc comments below).
-/

deriving instance DecidableEq for Except

namespace Ipam

/-- Model of netip.Prefix: an address of bitlen bits (32 for IPv4, 128 for
IPv6) together with a network mask length. The zero value (all fields 0)
models the zero netip.Prefix, which is invalid. -/
structure Pfx where
  addr : Nat
  bits : Nat
  bitlen : Nat
deriving DecidableEq, Repr

/-- Model of netip.Prefix.IsValid: the address must be a real address
(bitlen 32 or 128, addr in range) and the mask length must be at most the
address bit length. -/
def Pfx.IsValid (p : Pfx) : Bool :=
  (p.bitlen == 32 || p.bitlen == 128) && p.bits ≤ p.bitlen && p.addr < 2 ^ p.bitlen

/-- Model of netip.Prefix.Masked: clear the low (bitlen - bits) host bits.
Division followed by multiplication by 2^(bitlen-bits) is the Nat form of
the AND with the network mask performed by the Go standard library.
Masked of an invalid value is the zero value, as in Go. -/
def Pfx.Masked (p : Pfx) : Pfx :=
  if p.IsValid then
    ⟨p.addr / 2 ^ (p.bitlen - p.bits) * 2 ^ (p.bitlen - p.bits), p.bits, p.bitlen⟩
  else ⟨0, 0, 0⟩

/-- Model of netip.Prefix.Overlaps: valid, same family, and equal when both
addresses are truncated to the shorter of the two mask lengths. Dividing by
2^(bitlen-m) keeps exactly the top m bits, which is what masking both
addresses to m bits and comparing does. -/
def Pfx.Overlaps (p o : Pfx) : Bool :=
  p.IsValid && o.IsValid && p.bitlen == o.bitlen &&
    p.addr / 2 ^ (p.bitlen - min p.bits o.bits) == o.addr / 2 ^ (o.bitlen - min p.bits o.bits)

/-- Error outcomes of the bit-set collaborator. -/
inductive BitmapError
| noBitAvailable
| badRange
deriving DecidableEq, Repr

/-- Modelled from the spec: the external bit-set primitive
(github.com/docker/docker/libnetwork/bitmap, not part of the excerpted
sources). It has a fixed capacity of bits and records the set ordinals. -/
structure Bitmap where
  bits : Nat
  allocd : Finset Nat
deriving DecidableEq

/-- Fuel-driven search for the lowest member of [lo, hi] not in s. The
fuel only bounds the recursion depth; with fuel at least hi + 1 - lo it
never runs out (see findClearFuel_spec). -/
def findClearFuel (s : Finset Nat) (hi : Nat) : Nat → Nat → Option Nat
| 0, _ => none
| fuel + 1, lo =>
  if hi < lo then none
  else if lo ∈ s then findClearFuel s hi fuel (lo + 1)
  else some lo

/-- Lowest member of [lo, hi] not in s, if any. -/
def findClear (s : Finset Nat) (lo hi : Nat) : Option Nat :=
  findClearFuel s hi (hi + 1 - lo) lo

/-- Modelled from the spec: SetAny restricted to the inclusive range
[lo, hi] returns the lowest clear index in the range and sets it;
an out-of-bounds range is reported as a distinct (fatal) error, and a full
range reports no-bit-available. -/
def Bitmap.setAny (b : Bitmap) (lo hi : Nat) : Except BitmapError (Nat × Bitmap) :=
  if hi < lo ∨ b.bits ≤ hi then .error .badRange
  else
    match findClear b.allocd lo hi with
    | none => .error .noBitAvailable
    | some n => .ok (n, ⟨b.bits, insert n b.allocd⟩)

/-- Modelled from the spec: SetAny with no range option scans the whole
bit-set. -/
def Bitmap.setAnyAll (b : Bitmap) : Except BitmapError (Nat × Bitmap) :=
  if b.bits = 0 then .error .noBitAvailable else b.setAny 0 (b.bits - 1)

/-- Modelled from the spec: Unset clears a bit; clearing an already-clear
bit is treated as success (release is idempotent). -/
def Bitmap.unset (b : Bitmap) (n : Nat) : Bitmap :=
  ⟨b.bits, b.allocd.erase n⟩

/-- A NetworkChunk (ipamutils/netchunk.go): a base network in canonical
masked form, the mask length of each sub-network, and the allocation
ledger. -/
structure NetworkChunk where
  base : Pfx
  subbits : Nat
  allocated : Bitmap
deriving DecidableEq

/-- Construction errors of NewChunk. -/
inductive ChunkError
| invalidBase
| subnetBitsOutOfRange
deriving DecidableEq, Repr

/-- NewChunk (netchunk.go lines 44-64): validate the base and the subnet
bit count, then size the ledger with saturating arithmetic. -/
def NewChunk (base : Pfx) (subnetBits : Nat) : Except ChunkError NetworkChunk :=
  if !base.IsValid then .error .invalidBase
  else if base.bitlen < subnetBits ∨ base.bits > subnetBits then .error .subnetBitsOutOfRange
  else
    -- How many subnets can base be subdivided into? Saturating arithmetic.
    let lgn := subnetBits - base.bits
    let n : Nat := if lgn < 64 then 2 ^ lgn else 2 ^ 64 - 1
    .ok ⟨base.Masked, subnetBits, ⟨n, ∅⟩⟩

/-- NetworkChunk.Len: the size of the ledger. -/
def NetworkChunk.Len (c : NetworkChunk) : Nat := c.allocated.bits

/-- NetworkChunk.prefixOf (netchunk.go lines 111-126): base + (ordinal
shifted into the subnet field). The IPv4 branch truncates the ordinal to
uint32 and wraps mod 2^32 exactly as the Go uint32 arithmetic does; the
IPv6 branch is the uint128 add/lsh helper arithmetic, modelled from the
spec as exact arithmetic mod 2^128 (the ordinal itself is a uint64). -/
def NetworkChunk.prefixOf (c : NetworkChunk) (ordinal : Nat) : Pfx :=
  if c.base.bitlen == 32 then
    ⟨(c.base.addr + (ordinal % 2 ^ 32) * 2 ^ (32 - c.subbits) % 2 ^ 32) % 2 ^ 32,
      c.subbits, 32⟩
  else
    ⟨(c.base.addr + (ordinal % 2 ^ 64) * 2 ^ (c.base.bitlen - c.subbits) % 2 ^ 128) % 2 ^ 128,
      c.subbits, c.base.bitlen⟩

/-- Result of NetworkChunk.ordinalOf: not a member, a member with its
ordinal, or the fatal out-of-uint64-range panic. -/
inductive OrdResult
| panicked
| notFound
| found (n : Nat)
deriving DecidableEq, Repr

/-- NetworkChunk.ordinalOf (netchunk.go lines 129-168): reject non-members,
then extract the subnet-id bit field. The AND with the submask
2^(bitlen - base.bits) - 1 is written as mod (for base.bits = 0 the Go
shift wraps and the submask is still all-ones, which mod also gives) and
the right shift as division. The IPv6 branch panics when the extracted
field does not fit in a uint64. -/
def NetworkChunk.ordinalOf (c : NetworkChunk) (p : Pfx) : OrdResult :=
  if !p.IsValid || p.bits != c.subbits || !c.base.Overlaps p then .notFound
  else
    let q := p.Masked
    if q.bitlen == 32 then
      .found (q.addr % 2 ^ (32 - c.base.bits) / 2 ^ (32 - q.bits))
    else
      let v := q.addr % 2 ^ (128 - c.base.bits) / 2 ^ (q.bitlen - q.bits)
      if v < 2 ^ 64 then .found v else .panicked

/-- Result of NetworkChunk.Allocate: panic on a bad range, no prefix
available, or success carrying the prefix, its ordinal and the new chunk
state. -/
inductive AllocResult
| panicked
| noneAvail
| alloc (pfx : Pfx) (n : Nat) (c : NetworkChunk)
deriving DecidableEq

/-- NetworkChunk.Allocate (netchunk.go lines 79-89): ask the ledger for the
lowest clear bit, optionally restricted to an inclusive range; a no-room
report returns not-ok, any other ledger error panics. -/
def NetworkChunk.Allocate (c : NetworkChunk) (opts : Option (Nat × Nat)) : AllocResult :=
  match (match opts with
         | none => c.allocated.setAnyAll
         | some (lo, hi) => c.allocated.setAny lo hi) with
  | .error .noBitAvailable => .noneAvail
  | .error .badRange => .panicked
  | .ok (n, b) => .alloc (c.prefixOf n) n ⟨c.base, c.subbits, b⟩

/-- NetworkChunk.Release (netchunk.go lines 99-108): none models the panic
path (ordinalOf reporting the fatal out-of-range condition); otherwise the
membership verdict and the updated chunk. -/
def NetworkChunk.Release (c : NetworkChunk) (p : Pfx) : Option (Bool × NetworkChunk) :=
  match c.ordinalOf p with
  | .panicked => none
  | .notFound => some (false, c)
  | .found n => some (true, ⟨c.base, c.subbits, c.allocated.unset n⟩)

/-- A descriptor in the pool constructor input (ipamutils.NetworkToSplit):
the base network and the subnet size. The Base field of the Go struct is a
textual CIDR; parsing is external, so the model carries the parse result,
with none standing for an unparseable string. -/
structure NetworkToSplit where
  base : Option Pfx
  size : Nat
deriving DecidableEq

/-- Errors of NewPool. The Go errors carry exactly this data: the parse
failure and the NewChunk failure name the descriptor index, the overlap
failure names the two overlapping base networks. -/
inductive PoolError
| parseErr (i : Nat)
| overlapErr (base other : Pfx)
| sizeErr (i : Nat) (e : ChunkError)
deriving DecidableEq, Repr

/-- The descriptor index carried by a pool construction error, if any. -/
def PoolError.errIndex : PoolError → Option Nat
| .parseErr i => some i
| .sizeErr i _ => some i
| .overlapErr _ _ => none

/-- A NetworkPool: the chunks plus the cursor (nextChunk, nextOrdinal). -/
structure NetworkPool where
  chunks : List NetworkChunk
  nextChunk : Nat
  nextOrdinal : Nat
deriving DecidableEq

/-- The loop body of NewPool: for descriptor i, parse, check overlap
against every previously accepted chunk (in order), then build the chunk.
acc holds the chunks accepted so far. -/
def buildChunks : List NetworkToSplit → Nat → List NetworkChunk → Except PoolError (List NetworkChunk)
| [], _, acc => .ok acc
| n :: rest, i, acc =>
  match n.base with
  | none => .error (.parseErr i)
  | some base =>
    match acc.find? (fun chk => base.Overlaps chk.base) with
    | some chk => .error (.overlapErr base chk.base)
    | none =>
      match NewChunk base n.size with
      | .error e => .error (.sizeErr i e)
      | .ok c => buildChunks rest (i + 1) (acc ++ [c])

/-- NewPool (ipamutils): build the chunks in input order; the cursor starts
at (0, 0). -/
def NewPool (nets : List NetworkToSplit) : Except PoolError NetworkPool :=
  match buildChunks nets 0 [] with
  | .error e => .error e
  | .ok chunks => .ok ⟨chunks, 0, 0⟩

/-- The uint64 value of Len()-1: Go computes it in uint64, so a length of 0
wraps around to 2^64-1. -/
def u64pred (n : Nat) : Nat := (n + (2 ^ 64 - 1)) % 2 ^ 64

/-- NetworkPool.setNext: if the allocated ordinal was the last of its
chunk, move the cursor to the start of the following chunk (wrapping);
otherwise to the next ordinal of the same chunk. Every call site passes an
in-bounds chunk index, so the getD default is never taken there. -/
def NetworkPool.setNext (p : NetworkPool) (currChunk currN : Nat) : NetworkPool :=
  let len := ((p.chunks[currChunk]?).map NetworkChunk.Len).getD 0
  if u64pred len ≤ currN then
    ⟨p.chunks, if p.chunks.length ≤ currChunk + 1 then 0 else currChunk + 1, 0⟩
  else
    ⟨p.chunks, currChunk, currN + 1⟩

/-- Result of NetworkPool.Allocate: a panic (out-of-range scan or chunk
index), failure (pool unchanged, carried for the frame statement), or
success with the prefix, the chunk index and ordinal it came from, and the
new pool state. -/
inductive PAResult
| panicked
| nothing (p : NetworkPool)
| alloc (pfx : Pfx) (chk n : Nat) (p : NetworkPool)
deriving DecidableEq

/-- The two middle loops of NetworkPool.Allocate: try an unrestricted
allocation on each listed chunk index in turn; none means every listed
chunk was full. -/
def NetworkPool.scanChunks (p : NetworkPool) : List Nat → Option PAResult
| [] => none
| i :: rest =>
  match p.chunks[i]? with
  | none => some .panicked
  | some c =>
    match c.Allocate none with
    | .panicked => some .panicked
    | .alloc pfx n cNew =>
        some (.alloc pfx i n ((NetworkPool.mk (p.chunks.set i cNew) p.nextChunk p.nextOrdinal).setNext i n))
    | .noneAvail => p.scanChunks rest

/-- NetworkPool.Allocate (the pool scan): right half of the current chunk,
then every other chunk starting after it and wrapping, then the left half
of the current chunk. -/
def NetworkPool.Allocate (p : NetworkPool) : PAResult :=
  if p.chunks.length = 0 then .nothing p
  else
    match p.chunks[p.nextChunk]? with
    | none => .panicked
    | some currChunk =>
      match currChunk.Allocate (some (p.nextOrdinal, u64pred currChunk.Len)) with
      | .panicked => .panicked
      | .alloc pfx n cNew =>
          .alloc pfx p.nextChunk n
            ((NetworkPool.mk (p.chunks.set p.nextChunk cNew) p.nextChunk p.nextOrdinal).setNext p.nextChunk n)
      | .noneAvail =>
        match p.scanChunks (List.range' (p.nextChunk + 1) (p.chunks.length - (p.nextChunk + 1))
            ++ List.range p.nextChunk) with
        | some r => r
        | none =>
          match currChunk.Allocate (some (0, p.nextOrdinal)) with
          | .panicked => .panicked
          | .alloc pfx n cNew =>
              .alloc pfx p.nextChunk n
                ((NetworkPool.mk (p.chunks.set p.nextChunk cNew) p.nextChunk p.nextOrdinal).setNext p.nextChunk n)
          | .noneAvail => .nothing p

/-- The loop of NetworkPool.Release: ok = ok || chunk.Release(prefix) over
all chunks; the short-circuit of || skips the remaining chunks after the
first success. none models a panic inside a chunk Release. -/
def releaseChunks : List NetworkChunk → Pfx → Option (Bool × List NetworkChunk)
| [], _ => some (false, [])
| c :: rest, pfx =>
  match c.Release pfx with
  | none => none
  | some (true, cNew) => some (true, cNew :: rest)
  | some (false, cNew) =>
      match releaseChunks rest pfx with
      | none => none
      | some (ok, restNew) => some (ok, cNew :: restNew)

/-- NetworkPool.Release: try every chunk in order; the cursor fields are
untouched. -/
def NetworkPool.Release (p : NetworkPool) (pfx : Pfx) : Option (Bool × NetworkPool) :=
  match releaseChunks p.chunks pfx with
  | none => none
  | some (ok, chks) => some (ok, ⟨chks, p.nextChunk, p.nextOrdinal⟩)

/-- Invariants established by NewChunk: a real address family, subnet bits
between the base mask length and the address bit length, the base address
in range and in canonical masked form, and the ledger sized by the
saturating capacity rule. -/
def ChunkWF (c : NetworkChunk) : Prop :=
  (c.base.bitlen = 32 ∨ c.base.bitlen = 128) ∧
  c.base.bits ≤ c.subbits ∧ c.subbits ≤ c.base.bitlen ∧
  c.base.addr < 2 ^ c.base.bitlen ∧
  c.base.addr % 2 ^ (c.base.bitlen - c.base.bits) = 0 ∧
  c.allocated.bits = (if c.subbits - c.base.bits < 64 then 2 ^ (c.subbits - c.base.bits) else 2 ^ 64 - 1)

/-- The pool cursor invariant: every chunk has a ledger of length at least
1 and below 2^64, and (for a non-empty pool) the cursor names an in-bounds
chunk and an in-bounds ordinal of it. -/
def PoolInv (p : NetworkPool) : Prop :=
  (∀ c ∈ p.chunks, 1 ≤ c.Len ∧ c.Len < 2 ^ 64) ∧
  (p.chunks ≠ [] → p.nextChunk < p.chunks.length ∧
      p.nextOrdinal < (((p.chunks[p.nextChunk]?).map NetworkChunk.Len).getD 0))

/-! ### Characterization of the ledger search -/

theorem findClearFuel_none_iff (s : Finset Nat) (hi : Nat) :
    ∀ fuel lo, hi + 1 - lo ≤ fuel →
      (findClearFuel s hi fuel lo = none ↔ ∀ j, lo ≤ j → j ≤ hi → j ∈ s) := by
  intro fuel
  induction fuel with
  | zero =>
    intro lo hf
    have hlt : hi < lo := by omega
    simp only [findClearFuel, true_iff]
    intro j hj1 hj2
    omega
  | succ k ih =>
    intro lo hf
    simp only [findClearFuel]
    by_cases hlt : hi < lo
    · simp only [if_pos hlt, true_iff]
      intro j hj1 hj2; omega
    · simp only [if_neg hlt]
      by_cases hmem : lo ∈ s
      · simp only [if_pos hmem]
        rw [ih (lo + 1) (by omega)]
        constructor
        · intro h j hj1 hj2
          rcases Nat.eq_or_lt_of_le hj1 with rfl | hlt2
          · exact hmem
          · exact h j hlt2 hj2
        · intro h j hj1 hj2
          exact h j (by omega) hj2
      · simp only [if_neg hmem, reduceCtorEq, false_iff, not_forall]
        exact ⟨lo, le_rfl, by omega, hmem⟩

theorem findClearFuel_some_iff (s : Finset Nat) (hi : Nat) :
    ∀ fuel lo m, hi + 1 - lo ≤ fuel →
      (findClearFuel s hi fuel lo = some m ↔
        lo ≤ m ∧ m ≤ hi ∧ m ∉ s ∧ ∀ j, lo ≤ j → j < m → j ∈ s) := by
  intro fuel
  induction fuel with
  | zero =>
    intro lo m hf
    have hlt : hi < lo := by omega
    simp only [findClearFuel, reduceCtorEq, false_iff, not_and]
    intro h1 h2
    omega
  | succ k ih =>
    intro lo m hf
    simp only [findClearFuel]
    by_cases hlt : hi < lo
    · simp only [if_pos hlt, reduceCtorEq, false_iff, not_and]
      intro h1 h2
      omega
    · simp only [if_neg hlt]
      by_cases hmem : lo ∈ s
      · simp only [if_pos hmem]
        rw [ih (lo + 1) m (by omega)]
        constructor
        · rintro ⟨h1, h2, h3, h4⟩
          refine ⟨by omega, h2, h3, fun j hj1 hj2 => ?_⟩
          rcases Nat.eq_or_lt_of_le hj1 with rfl | hlt2
          · exact hmem
          · exact h4 j hlt2 hj2
        · rintro ⟨h1, h2, h3, h4⟩
          have hne : lo ≠ m := fun he => h3 (he ▸ hmem)
          exact ⟨by omega, h2, h3, fun j hj1 hj2 => h4 j (by omega) hj2⟩
      · simp only [if_neg hmem, Option.some.injEq]
        constructor
        · rintro rfl
          exact ⟨le_rfl, by omega, hmem, fun j hj1 hj2 => by omega⟩
        · rintro ⟨h1, h2, h3, h4⟩
          by_contra hne
          exact hmem (h4 lo le_rfl (by omega))

theorem findClear_none_iff (s : Finset Nat) (lo hi : Nat) :
    findClear s lo hi = none ↔ ∀ j, lo ≤ j → j ≤ hi → j ∈ s :=
  findClearFuel_none_iff s hi (hi + 1 - lo) lo le_rfl

theorem findClear_some_iff (s : Finset Nat) (lo hi m : Nat) :
    findClear s lo hi = some m ↔
      lo ≤ m ∧ m ≤ hi ∧ m ∉ s ∧ ∀ j, lo ≤ j → j < m → j ∈ s :=
  findClearFuel_some_iff s hi (hi + 1 - lo) lo m le_rfl

theorem findClear_some_bounds {s : Finset Nat} {lo hi m : Nat}
    (h : findClear s lo hi = some m) : lo ≤ m ∧ m ≤ hi := by
  have := (findClear_some_iff s lo hi m).mp h
  exact ⟨this.1, this.2.1⟩

/-! ### Chunk-level allocation computation lemmas -/

theorem chunk_allocate_range_none (c : NetworkChunk) (lo hi : Nat)
    (h1 : lo ≤ hi) (h2 : hi < c.Len)
    (h3 : findClear c.allocated.allocd lo hi = none) :
    c.Allocate (some (lo, hi)) = .noneAvail := by
  simp only [NetworkChunk.Allocate, Bitmap.setAny]
  rw [if_neg (by unfold NetworkChunk.Len at h2; omega), h3]

theorem chunk_allocate_range_some (c : NetworkChunk) (lo hi m : Nat)
    (h1 : lo ≤ hi) (h2 : hi < c.Len)
    (h3 : findClear c.allocated.allocd lo hi = some m) :
    c.Allocate (some (lo, hi)) =
      .alloc (c.prefixOf m) m ⟨c.base, c.subbits, ⟨c.allocated.bits, insert m c.allocated.allocd⟩⟩ := by
  simp only [NetworkChunk.Allocate, Bitmap.setAny]
  rw [if_neg (by unfold NetworkChunk.Len at h2; omega), h3]

theorem chunk_allocate_unrestricted (c : NetworkChunk) (h : 1 ≤ c.Len) :
    c.Allocate none = c.Allocate (some (0, c.Len - 1)) := by
  simp only [NetworkChunk.Allocate, Bitmap.setAnyAll, NetworkChunk.Len]
  rw [if_neg (by unfold NetworkChunk.Len at h; omega)]

/-! ### Subnet-field arithmetic -/

theorem subnet_arith (B b s A n : Nat) (hbs : b ≤ s) (hsB : s ≤ B)
    (hA : A < 2 ^ B) (hmask : A % 2 ^ (B - b) = 0) (hn : n < 2 ^ (s - b)) :
    n * 2 ^ (B - s) < 2 ^ (B - b) ∧
    A + n * 2 ^ (B - s) < 2 ^ B ∧
    (A + n * 2 ^ (B - s)) % 2 ^ (B - b) = n * 2 ^ (B - s) ∧
    (A + n * 2 ^ (B - s)) / 2 ^ (B - b) = A / 2 ^ (B - b) ∧
    (A + n * 2 ^ (B - s)) % 2 ^ (B - s) = 0 ∧
    n * 2 ^ (B - s) / 2 ^ (B - s) = n := by
  have hposb : 0 < 2 ^ (B - b) := Nat.pos_pow_of_pos _ (by norm_num)
  have hposs : 0 < 2 ^ (B - s) := Nat.pos_pow_of_pos _ (by norm_num)
  have hexp : 2 ^ (s - b) * 2 ^ (B - s) = 2 ^ (B - b) := by
    rw [← pow_add]
    congr 1
    omega
  have h1 : n * 2 ^ (B - s) < 2 ^ (B - b) := by
    rw [← hexp]
    exact mul_lt_mul_of_pos_right hn hposs
  have hq : A = A / 2 ^ (B - b) * 2 ^ (B - b) :=
    (Nat.div_mul_cancel (Nat.dvd_of_mod_eq_zero hmask)).symm
  have hqlt : A / 2 ^ (B - b) < 2 ^ b := by
    apply Nat.div_lt_of_lt_mul
    calc A < 2 ^ B := hA
      _ = 2 ^ (B - b) * 2 ^ b := by rw [← pow_add]; congr 1; omega
  have h2 : A + n * 2 ^ (B - s) < 2 ^ B := by
    calc A + n * 2 ^ (B - s)
        < A / 2 ^ (B - b) * 2 ^ (B - b) + 2 ^ (B - b) := by omega
      _ = (A / 2 ^ (B - b) + 1) * 2 ^ (B - b) := by ring
      _ ≤ 2 ^ b * 2 ^ (B - b) := Nat.mul_le_mul (by omega) le_rfl
      _ = 2 ^ B := by rw [← pow_add]; congr 1; omega
  have hq2 : A = 2 ^ (B - b) * (A / 2 ^ (B - b)) :=
    (Nat.mul_div_cancel' (Nat.dvd_of_mod_eq_zero hmask)).symm
  have h3 : (A + n * 2 ^ (B - s)) % 2 ^ (B - b) = n * 2 ^ (B - s) := by
    conv_lhs => rw [hq2]
    rw [Nat.mul_add_mod]
    exact Nat.mod_eq_of_lt h1
  have h4 : (A + n * 2 ^ (B - s)) / 2 ^ (B - b) = A / 2 ^ (B - b) := by
    conv_lhs => rw [Nat.add_comm, hq]
    rw [Nat.add_mul_div_right _ _ hposb, Nat.div_eq_of_lt h1, Nat.zero_add]
  have h5 : (A + n * 2 ^ (B - s)) % 2 ^ (B - s) = 0 := by
    have hdvd1 : 2 ^ (B - s) ∣ A :=
      dvd_trans (pow_dvd_pow 2 (by omega : B - s ≤ B - b)) (Nat.dvd_of_mod_eq_zero hmask)
    obtain ⟨k, hk⟩ : 2 ^ (B - s) ∣ A + n * 2 ^ (B - s) :=
      Nat.dvd_add hdvd1 (Dvd.intro_left n rfl)
    rw [hk, Nat.mul_mod_right]
  have h6 : n * 2 ^ (B - s) / 2 ^ (B - s) = n := Nat.mul_div_cancel n hposs
  exact ⟨h1, h2, h3, h4, h5, h6⟩

/-- NewChunk establishes the chunk invariants. -/
theorem NewChunk_wf (base : Pfx) (s : Nat) (c : NetworkChunk)
    (h : NewChunk base s = .ok c) : ChunkWF c := by
  unfold NewChunk at h
  by_cases hv : base.IsValid
  · rw [if_neg (by simp [hv])] at h
    by_cases hrange : base.bitlen < s ∨ base.bits > s
    · rw [if_pos hrange] at h
      cases h
    · rw [if_neg hrange] at h
      have hc : c = ⟨base.Masked, s, ⟨if s - base.bits < 64 then 2 ^ (s - base.bits) else 2 ^ 64 - 1, ∅⟩⟩ := by
        cases h
        rfl
      subst hc
      have hval := hv
      unfold Pfx.IsValid at hval
      simp only [Bool.and_eq_true, Bool.or_eq_true, beq_iff_eq, decide_eq_true_eq] at hval
      obtain ⟨⟨hfam, hble⟩, haddr⟩ := hval
      unfold Pfx.Masked
      rw [if_pos hv]
      refine ⟨hfam, by simp; omega, by simp; omega, ?_, ?_, ?_⟩
      · simp only
        calc base.addr / 2 ^ (base.bitlen - base.bits) * 2 ^ (base.bitlen - base.bits)
            ≤ base.addr := Nat.div_mul_le_self _ _
          _ < 2 ^ base.bitlen := haddr
      · simp only [Nat.mul_mod_left]
      · simp only
  · rw [if_pos (by simp [hv])] at h
    cases h

/-- For an ordinal below the ledger length, the prefix computation is exact:
no truncation or wrap-around occurs in either address family. -/
theorem prefixOf_eq (c : NetworkChunk) (hwf : ChunkWF c) (n : Nat)
    (hn : n < 2 ^ (c.subbits - c.base.bits)) (hn64 : n < 2 ^ 64) :
    c.prefixOf n =
      ⟨c.base.addr + n * 2 ^ (c.base.bitlen - c.subbits), c.subbits, c.base.bitlen⟩ := by
  obtain ⟨hfam, hbs, hsB, hA, hmask, hbits⟩ := hwf
  obtain ⟨h1, h2, h3, h4, h5, h6⟩ :=
    subnet_arith c.base.bitlen c.base.bits c.subbits c.base.addr n hbs hsB hA hmask hn
  have hxle : ∀ k, c.subbits - c.base.bits ≤ k → n < 2 ^ k := fun k hk =>
    lt_of_lt_of_le hn (Nat.pow_le_pow_right (by norm_num) hk)
  rcases hfam with hB | hB
  · rw [hB] at h1 h2
    have e1 : n % 2 ^ 32 = n := Nat.mod_eq_of_lt (hxle 32 (by omega))
    have e2 : n * 2 ^ (32 - c.subbits) % 2 ^ 32 = n * 2 ^ (32 - c.subbits) :=
      Nat.mod_eq_of_lt (lt_of_lt_of_le h1 (Nat.pow_le_pow_right (by norm_num) (by omega)))
    have e3 : (c.base.addr + n * 2 ^ (32 - c.subbits)) % 2 ^ 32 =
        c.base.addr + n * 2 ^ (32 - c.subbits) := Nat.mod_eq_of_lt h2
    unfold NetworkChunk.prefixOf
    rw [hB]
    norm_num [e1, e2, e3]
    all_goals omega
  · rw [hB] at h1 h2
    have ex : n * 2 ^ (128 - c.subbits) < 2 ^ 128 :=
      lt_of_lt_of_le h1 (Nat.pow_le_pow_right (by norm_num) (by omega))
    have e1 : n % 18446744073709551616 = n := Nat.mod_eq_of_lt (by omega)
    have e2 : n * 2 ^ (128 - c.subbits) % 340282366920938463463374607431768211456 =
        n * 2 ^ (128 - c.subbits) := Nat.mod_eq_of_lt (by omega)
    have e3 : (c.base.addr + n * 2 ^ (128 - c.subbits)) % 340282366920938463463374607431768211456 =
        c.base.addr + n * 2 ^ (128 - c.subbits) := Nat.mod_eq_of_lt (by omega)
    unfold NetworkChunk.prefixOf
    rw [hB]
    norm_num [e1, e2, e3]

/-- The inverse direction: ordinalOf recovers the ordinal from the exact
member prefix. -/
theorem ordinalOf_member (c : NetworkChunk) (hwf : ChunkWF c) (n : Nat)
    (hn : n < 2 ^ (c.subbits - c.base.bits)) (hn64 : n < 2 ^ 64) :
    c.ordinalOf ⟨c.base.addr + n * 2 ^ (c.base.bitlen - c.subbits), c.subbits, c.base.bitlen⟩ =
      .found n := by
  obtain ⟨hfam, hbs, hsB, hA, hmask, hbits⟩ := hwf
  obtain ⟨h1, h2, h3, h4, h5, h6⟩ :=
    subnet_arith c.base.bitlen c.base.bits c.subbits c.base.addr n hbs hsB hA hmask hn
  set x := n * 2 ^ (c.base.bitlen - c.subbits) with hxdef
  have hfam32 : (c.base.bitlen == 32 || c.base.bitlen == 128) = true := by
    rcases hfam with hB | hB <;> simp [hB]
  have hvalid : Pfx.IsValid ⟨c.base.addr + x, c.subbits, c.base.bitlen⟩ = true := by
    unfold Pfx.IsValid
    simp only [Bool.and_eq_true, decide_eq_true_eq]
    exact ⟨⟨hfam32, by omega⟩, h2⟩
  have hbasevalid : c.base.IsValid = true := by
    unfold Pfx.IsValid
    simp only [Bool.and_eq_true, decide_eq_true_eq]
    exact ⟨⟨hfam32, by omega⟩, hA⟩
  have hmin : min c.base.bits c.subbits = c.base.bits := Nat.min_eq_left hbs
  have hover : c.base.Overlaps ⟨c.base.addr + x, c.subbits, c.base.bitlen⟩ = true := by
    unfold Pfx.Overlaps
    rw [hbasevalid, hvalid, hmin, h4]
    simp
  have hmasked :
      Pfx.Masked ⟨c.base.addr + x, c.subbits, c.base.bitlen⟩ =
        ⟨c.base.addr + x, c.subbits, c.base.bitlen⟩ := by
    unfold Pfx.Masked
    rw [if_pos hvalid]
    simp only [Pfx.mk.injEq, and_true]
    exact Nat.div_mul_cancel (Nat.dvd_of_mod_eq_zero h5)
  unfold NetworkChunk.ordinalOf
  rw [if_neg (by simp [hvalid, hover])]
  simp only [hmasked]
  rcases hfam with hB | hB
  · rw [hB] at h3 h6 ⊢
    norm_num [h3, h6]
  · rw [hB] at h3 h6 ⊢
    norm_num [h3, h6]
    all_goals omega

/-- Inversion of a successful NewChunk. -/
theorem NewChunk_ok_inv (base : Pfx) (s : Nat) (c : NetworkChunk)
    (h : NewChunk base s = .ok c) :
    base.IsValid = true ∧ base.bits ≤ s ∧ s ≤ base.bitlen ∧
    c = ⟨base.Masked, s, ⟨if s - base.bits < 64 then 2 ^ (s - base.bits) else 2 ^ 64 - 1, ∅⟩⟩ := by
  unfold NewChunk at h
  by_cases hv : base.IsValid
  · rw [if_neg (by simp [hv])] at h
    by_cases hr : base.bitlen < s ∨ base.bits > s
    · rw [if_pos hr] at h
      cases h
    · rw [if_neg hr] at h
      refine ⟨hv, by omega, by omega, ?_⟩
      cases h
      rfl
  · rw [if_pos (by simp [hv])] at h
    cases h

/-- NewChunk succeeds whenever the base is valid and the subnet bit count
is within range. -/
theorem NewChunk_ok_of_valid (base : Pfx) (s : Nat)
    (hv : base.IsValid = true) (h1 : base.bits ≤ s) (h2 : s ≤ base.bitlen) :
    NewChunk base s =
      .ok ⟨base.Masked, s, ⟨if s - base.bits < 64 then 2 ^ (s - base.bits) else 2 ^ 64 - 1, ∅⟩⟩ := by
  unfold NewChunk
  rw [if_neg (by simp [hv]), if_neg (by omega)]

/-- C1: for every valid block (base, subnetBits) and every ordinal n with
0 ≤ n < capacity, converting the ordinal to a prefix and back is the
identity: ordinalOf (prefixOf n) finds exactly n, for both the 32-bit and
the 128-bit address families. -/
theorem ordinalOf_prefixOf_roundTrip (base : Pfx) (s : Nat) (c : NetworkChunk)
    (hok : NewChunk base s = .ok c) (n : Nat) (hn : n < c.Len) :
    c.ordinalOf (c.prefixOf n) = .found n := by
  obtain ⟨hfam, hbs, hsB, hA, hmask, hbits⟩ := NewChunk_wf base s c hok
  have hnb : n < 2 ^ (c.subbits - c.base.bits) ∧ n < 2 ^ 64 := by
    rw [NetworkChunk.Len, hbits] at hn
    by_cases hd : c.subbits - c.base.bits < 64
    · rw [if_pos hd] at hn
      exact ⟨hn, lt_of_lt_of_le hn (Nat.pow_le_pow_right (by norm_num) (by omega))⟩
    · rw [if_neg hd] at hn
      have hge : (2 : Nat) ^ 64 ≤ 2 ^ (c.subbits - c.base.bits) :=
        Nat.pow_le_pow_right (by norm_num) (by omega)
      exact ⟨by omega, by omega⟩
  have hwf : ChunkWF c := ⟨hfam, hbs, hsB, hA, hmask, hbits⟩
  rw [prefixOf_eq c hwf n hnb.1 hnb.2]
  exact ordinalOf_member c hwf n hnb.1 hnb.2

/-- Concrete instantiation of the round-trip theorem, one block per
address family. -/
theorem ordinalOf_prefixOf_roundTrip_witness :
    (NewChunk ⟨0x0a010000, 16, 32⟩ 20 = .ok ⟨⟨0x0a010000, 16, 32⟩, 20, ⟨16, ∅⟩⟩ ∧
      NetworkChunk.ordinalOf ⟨⟨0x0a010000, 16, 32⟩, 20, ⟨16, ∅⟩⟩
        (NetworkChunk.prefixOf ⟨⟨0x0a010000, 16, 32⟩, 20, ⟨16, ∅⟩⟩ 3) = .found 3) ∧
    (NewChunk ⟨0xfe80 <<< 112, 10, 128⟩ 14 = .ok ⟨⟨0xfe80 <<< 112, 10, 128⟩, 14, ⟨16, ∅⟩⟩ ∧
      NetworkChunk.ordinalOf ⟨⟨0xfe80 <<< 112, 10, 128⟩, 14, ⟨16, ∅⟩⟩
        (NetworkChunk.prefixOf ⟨⟨0xfe80 <<< 112, 10, 128⟩, 14, ⟨16, ∅⟩⟩ 5) = .found 5) :=
  ⟨⟨by decide, ordinalOf_prefixOf_roundTrip ⟨0x0a010000, 16, 32⟩ 20 _ (by decide) 3 (by decide)⟩,
   ⟨by decide, ordinalOf_prefixOf_roundTrip ⟨0xfe80 <<< 112, 10, 128⟩ 14 _ (by decide) 5 (by decide)⟩⟩

/-- Inversion of a successful ranged SetAny. -/
theorem setAny_ok_inv (b : Bitmap) (lo hi n : Nat) (bNew : Bitmap)
    (h : b.setAny lo hi = .ok (n, bNew)) :
    lo ≤ n ∧ n ≤ hi ∧ hi < b.bits ∧ n ∉ b.allocd ∧
    bNew = ⟨b.bits, insert n b.allocd⟩ ∧ findClear b.allocd lo hi = some n := by
  unfold Bitmap.setAny at h
  by_cases hc : hi < lo ∨ b.bits ≤ hi
  · rw [if_pos hc] at h
    cases h
  · rw [if_neg hc] at h
    cases hfc : findClear b.allocd lo hi with
    | none =>
      rw [hfc] at h
      cases h
    | some m =>
      rw [hfc] at h
      injection h with hpair
      rw [Prod.mk.injEq] at hpair
      obtain ⟨hm, hb⟩ := hpair
      subst hm
      obtain ⟨h1, h2, h3, _⟩ := (findClear_some_iff _ _ _ _).mp hfc
      exact ⟨h1, h2, by omega, h3, hb.symm, rfl⟩

/-- Inversion of a successful chunk allocation with an explicit range. -/
theorem chunk_allocate_some_inv (c : NetworkChunk) (lo hi : Nat) (pfx : Pfx)
    (n : Nat) (cNew : NetworkChunk)
    (h : c.Allocate (some (lo, hi)) = .alloc pfx n cNew) :
    lo ≤ n ∧ n ≤ hi ∧ hi < c.Len ∧ pfx = c.prefixOf n ∧
    cNew = ⟨c.base, c.subbits, ⟨c.allocated.bits, insert n c.allocated.allocd⟩⟩ ∧
    findClear c.allocated.allocd lo hi = some n := by
  simp only [NetworkChunk.Allocate] at h
  cases hsa : c.allocated.setAny lo hi with
  | error e =>
    rw [hsa] at h
    cases e <;> simp at h
  | ok v =>
    obtain ⟨m, b⟩ := v
    rw [hsa] at h
    injection h with hpfx hm hcNew
    subst hm
    obtain ⟨h1, h2, h3, h4, h5, h6⟩ := setAny_ok_inv c.allocated lo hi m b hsa
    exact ⟨h1, h2, h3, hpfx.symm, by rw [← hcNew, h5], h6⟩

/-- Inversion of a successful unrestricted chunk allocation. -/
theorem chunk_allocate_none_inv (c : NetworkChunk) (pfx : Pfx)
    (n : Nat) (cNew : NetworkChunk)
    (h : c.Allocate none = .alloc pfx n cNew) :
    n < c.Len ∧ pfx = c.prefixOf n ∧
    cNew = ⟨c.base, c.subbits, ⟨c.allocated.bits, insert n c.allocated.allocd⟩⟩ ∧
    findClear c.allocated.allocd 0 (c.Len - 1) = some n := by
  have hlen : 1 ≤ c.Len := by
    by_contra hz
    have hz0 : c.allocated.bits = 0 := by
      unfold NetworkChunk.Len at hz
      omega
    simp [NetworkChunk.Allocate, Bitmap.setAnyAll, hz0] at h
  rw [chunk_allocate_unrestricted c hlen] at h
  obtain ⟨_, h2, h3, h4, h5, h6⟩ := chunk_allocate_some_inv c 0 (c.Len - 1) pfx n cNew h
  exact ⟨by omega, h4, h5, h6⟩

/-- Every successful allocation stays below the ledger length. -/
theorem chunk_allocate_ordinal_lt (c : NetworkChunk) (opts : Option (Nat × Nat))
    (pfx : Pfx) (n : Nat) (cNew : NetworkChunk)
    (h : c.Allocate opts = .alloc pfx n cNew) : n < c.Len := by
  cases opts with
  | none => exact (chunk_allocate_none_inv c pfx n cNew h).1
  | some v =>
    obtain ⟨lo, hi⟩ := v
    obtain ⟨_, h2, h3, _⟩ := chunk_allocate_some_inv c lo hi pfx n cNew h
    omega

/-- C4: the capacity (ledger length) of a block is 2^(subnetBits -
base.bits) exactly when that difference is below 64, and saturates to
2^64 - 1 otherwise; in the saturated case no allocation from any chunk
state with that capacity can ever return the mathematically-last ordinal,
so the last subnet is unreachable. -/
theorem chunk_capacity_saturation (base : Pfx) (s : Nat) (c : NetworkChunk)
    (hok : NewChunk base s = .ok c) :
    (s - base.bits < 64 → c.Len = 2 ^ (s - base.bits)) ∧
    (64 ≤ s - base.bits →
      c.Len = 2 ^ 64 - 1 ∧
      ∀ cc : NetworkChunk, cc.Len = c.Len →
        ∀ opts pfx n ccNew, cc.Allocate opts = .alloc pfx n ccNew →
          n ≠ 2 ^ (s - base.bits) - 1) := by
  obtain ⟨hv, hb1, hb2, hc⟩ := NewChunk_ok_inv base s c hok
  subst hc
  constructor
  · intro hd
    simp only [NetworkChunk.Len, if_pos hd]
  · intro hd
    have hlen :
        NetworkChunk.Len ⟨base.Masked, s,
          ⟨if s - base.bits < 64 then 2 ^ (s - base.bits) else 2 ^ 64 - 1, ∅⟩⟩ = 2 ^ 64 - 1 := by
      simp only [NetworkChunk.Len, if_neg (by omega : ¬(s - base.bits < 64))]
    refine ⟨hlen, fun cc hcc opts pfx n ccNew hal => ?_⟩
    have hlt := chunk_allocate_ordinal_lt cc opts pfx n ccNew hal
    rw [hcc, hlen] at hlt
    have hge : (2 : Nat) ^ 64 ≤ 2 ^ (s - base.bits) :=
      Nat.pow_le_pow_right (by norm_num) (by omega)
    omega

/-- Concrete instantiation of the capacity theorem: fe80::/10 split into
/74s saturates at 2^64 - 1, and 192.168.0.0/16 split into /20s has
capacity 16. -/
theorem chunk_capacity_saturation_witness :
    NetworkChunk.Len ⟨⟨0xfe80 <<< 112, 10, 128⟩, 74, ⟨2 ^ 64 - 1, ∅⟩⟩ = 2 ^ 64 - 1 ∧
    NetworkChunk.Len ⟨⟨0xc0a80000, 16, 32⟩, 20, ⟨16, ∅⟩⟩ = 2 ^ (20 - 16) :=
  ⟨((chunk_capacity_saturation ⟨0xfe80 <<< 112, 10, 128⟩ 74 _ (by decide)).2 (by decide)).1,
   (chunk_capacity_saturation ⟨0xc0a80000, 16, 32⟩ 20 _ (by decide)).1 (by decide)⟩

/-- C5: for an IPv6 block with subnetBits - base.bits at least 64, the
ordinal-to-prefix computation is exact (no wrap or truncation) for every
ordinal below 2^64, distinct ordinals give distinct prefixes, the
mathematically-last subnet of the base is never produced by any in-range
ordinal (saturation), and concretely ordinal 2^64 - 2 of aaaa::/16 split
into /80s maps to aaaa:ffff:ffff:ffff:fffe::/80. -/
theorem wide_address_correctness :
    (∀ c : NetworkChunk, ChunkWF c → c.base.bitlen = 128 →
      64 ≤ c.subbits - c.base.bits →
      (∀ n, n < 2 ^ 64 →
        c.prefixOf n = ⟨c.base.addr + n * 2 ^ (128 - c.subbits), c.subbits, 128⟩) ∧
      (∀ n m, n < 2 ^ 64 → m < 2 ^ 64 → c.prefixOf n = c.prefixOf m → n = m) ∧
      (∀ n, n < c.Len →
        c.prefixOf n ≠
          ⟨c.base.addr + (2 ^ (c.subbits - c.base.bits) - 1) * 2 ^ (128 - c.subbits),
            c.subbits, 128⟩)) ∧
    NetworkChunk.prefixOf ⟨⟨0xaaaa <<< 112, 16, 128⟩, 80, ⟨2 ^ 64 - 1, ∅⟩⟩ (2 ^ 64 - 2) =
      ⟨0xaaaafffffffffffffffe <<< 48, 80, 128⟩ := by
  constructor
  · intro c hwf h128 hd
    obtain ⟨hfam, hbs, hsB, hA, hmask, hbits⟩ := hwf
    have hpow : (2 : Nat) ^ 64 ≤ 2 ^ (c.subbits - c.base.bits) :=
      Nat.pow_le_pow_right (by norm_num) hd
    have hexact : ∀ n, n < 2 ^ 64 →
        c.prefixOf n = ⟨c.base.addr + n * 2 ^ (128 - c.subbits), c.subbits, 128⟩ := by
      intro n hn
      have he := prefixOf_eq c ⟨hfam, hbs, hsB, hA, hmask, hbits⟩ n (by omega) hn
      rw [he, h128]
    have hp : 0 < 2 ^ (128 - c.subbits) := Nat.pos_pow_of_pos _ (by norm_num)
    refine ⟨hexact, ?_, ?_⟩
    · intro n m hn hm heq
      rw [hexact n hn, hexact m hm] at heq
      have haddr : c.base.addr + n * 2 ^ (128 - c.subbits) =
          c.base.addr + m * 2 ^ (128 - c.subbits) := congrArg Pfx.addr heq
      exact Nat.eq_of_mul_eq_mul_right hp (by omega)
    · intro n hn heq
      have hlen : c.Len = 2 ^ 64 - 1 := by
        rw [NetworkChunk.Len, hbits, if_neg (by omega)]
      rw [hlen] at hn
      rw [hexact n (by omega)] at heq
      have haddr : c.base.addr + n * 2 ^ (128 - c.subbits) =
          c.base.addr + (2 ^ (c.subbits - c.base.bits) - 1) * 2 ^ (128 - c.subbits) :=
        congrArg Pfx.addr heq
      have hnm : n = 2 ^ (c.subbits - c.base.bits) - 1 :=
        Nat.eq_of_mul_eq_mul_right hp (by omega)
      omega
  · decide

/-- Concrete instantiation of the wide-address theorem at the aaaa::/16
block split into /80s. -/
theorem wide_address_correctness_witness :
    NetworkChunk.prefixOf ⟨⟨0xaaaa <<< 112, 16, 128⟩, 80, ⟨2 ^ 64 - 1, ∅⟩⟩ 1 =
      ⟨0xaaaa <<< 112 + 1 * 2 ^ (128 - 80), 80, 128⟩ :=
  (wide_address_correctness.1 ⟨⟨0xaaaa <<< 112, 16, 128⟩, 80, ⟨2 ^ 64 - 1, ∅⟩⟩
      (by unfold ChunkWF; decide) rfl (by decide)).1 1 (by decide)

/-- State of a chunk after i consecutive unrestricted Allocate calls,
keeping the new state on success and the old state otherwise. -/
def NetworkChunk.afterAllocs (c : NetworkChunk) : Nat → NetworkChunk
| 0 => c
| i + 1 =>
  match (c.afterAllocs i).Allocate none with
  | .alloc _ _ cNew => cNew
  | _ => c.afterAllocs i

/-- On a chunk whose ledger starts empty, i consecutive allocations mark
exactly the ordinals 0, ..., i-1 and change nothing else. -/
theorem afterAllocs_spec (c : NetworkChunk) (hemp : c.allocated.allocd = ∅) :
    ∀ i, i ≤ c.Len →
      (c.afterAllocs i).base = c.base ∧ (c.afterAllocs i).subbits = c.subbits ∧
      (c.afterAllocs i).allocated.bits = c.allocated.bits ∧
      (c.afterAllocs i).allocated.allocd = Finset.range i := by
  intro i
  induction i with
  | zero =>
    intro _
    simp only [NetworkChunk.afterAllocs]
    exact ⟨trivial, trivial, trivial, by rw [hemp, Finset.range_zero]⟩
  | succ i ih =>
    intro hle
    obtain ⟨hb, hs, hbit, had⟩ := ih (by omega)
    have hLi : (c.afterAllocs i).Len = c.Len := by
      rw [NetworkChunk.Len, hbit]
      rfl
    have hfc : findClear (c.afterAllocs i).allocated.allocd 0 ((c.afterAllocs i).Len - 1) =
        some i := by
      rw [had, findClear_some_iff]
      exact ⟨Nat.zero_le _, by omega, by simp, fun j _ hj2 => Finset.mem_range.mpr hj2⟩
    have halloc := chunk_allocate_range_some (c.afterAllocs i) 0 ((c.afterAllocs i).Len - 1) i
      (by omega) (by omega) hfc
    have hunres := chunk_allocate_unrestricted (c.afterAllocs i) (by omega)
    have hstep : (c.afterAllocs i).Allocate none =
        .alloc ((c.afterAllocs i).prefixOf i) i
          ⟨(c.afterAllocs i).base, (c.afterAllocs i).subbits,
            ⟨(c.afterAllocs i).allocated.bits, insert i (c.afterAllocs i).allocated.allocd⟩⟩ := by
      rw [hunres, halloc]
    have hsucc : c.afterAllocs (i + 1) =
        ⟨(c.afterAllocs i).base, (c.afterAllocs i).subbits,
          ⟨(c.afterAllocs i).allocated.bits, insert i (c.afterAllocs i).allocated.allocd⟩⟩ := by
      simp only [NetworkChunk.afterAllocs, hstep]
    rw [hsucc]
    exact ⟨hb, hs, hbit, by rw [had, Finset.range_succ]⟩

/-- C6: a freshly constructed block with capacity k is allocated in
ascending ordinal order: the i-th unrestricted Allocate call (i < k)
succeeds with ordinal i, and the call following the k-th returns no
allocation. -/
theorem allocation_saturation (base : Pfx) (s : Nat) (c : NetworkChunk)
    (hok : NewChunk base s = .ok c) :
    (∀ i, i < c.Len →
      (c.afterAllocs i).Allocate none =
        .alloc ((c.afterAllocs i).prefixOf i) i (c.afterAllocs (i + 1))) ∧
    (c.afterAllocs c.Len).Allocate none = .noneAvail := by
  obtain ⟨hv, hb1, hb2, hc⟩ := NewChunk_ok_inv base s c hok
  have hemp : c.allocated.allocd = ∅ := by rw [hc]
  have hlen1 : 1 ≤ c.Len := by
    rw [hc]
    simp only [NetworkChunk.Len]
    by_cases hd : s - base.bits < 64
    · rw [if_pos hd]
      exact Nat.pos_pow_of_pos _ (by norm_num)
    · rw [if_neg hd]
      norm_num
  constructor
  · intro i hi
    obtain ⟨hb, hs, hbit, had⟩ := afterAllocs_spec c hemp i (le_of_lt hi)
    have hLi : (c.afterAllocs i).Len = c.Len := by
      rw [NetworkChunk.Len, hbit]
      rfl
    have hfc : findClear (c.afterAllocs i).allocated.allocd 0 ((c.afterAllocs i).Len - 1) =
        some i := by
      rw [had, findClear_some_iff]
      exact ⟨Nat.zero_le _, by omega, by simp, fun j _ hj2 => Finset.mem_range.mpr hj2⟩
    have halloc := chunk_allocate_range_some (c.afterAllocs i) 0 ((c.afterAllocs i).Len - 1) i
      (by omega) (by omega) hfc
    have hunres := chunk_allocate_unrestricted (c.afterAllocs i) (by omega)
    have hstep : (c.afterAllocs i).Allocate none =
        .alloc ((c.afterAllocs i).prefixOf i) i
          ⟨(c.afterAllocs i).base, (c.afterAllocs i).subbits,
            ⟨(c.afterAllocs i).allocated.bits, insert i (c.afterAllocs i).allocated.allocd⟩⟩ := by
      rw [hunres, halloc]
    have hsucc : c.afterAllocs (i + 1) =
        ⟨(c.afterAllocs i).base, (c.afterAllocs i).subbits,
          ⟨(c.afterAllocs i).allocated.bits, insert i (c.afterAllocs i).allocated.allocd⟩⟩ := by
      simp only [NetworkChunk.afterAllocs, hstep]
    rw [hstep, hsucc]
  · obtain ⟨hb, hs, hbit, had⟩ := afterAllocs_spec c hemp c.Len le_rfl
    have hLi : (c.afterAllocs c.Len).Len = c.Len := by
      rw [NetworkChunk.Len, hbit]
      rfl
    have hfc : findClear (c.afterAllocs c.Len).allocated.allocd 0
        ((c.afterAllocs c.Len).Len - 1) = none := by
      rw [had, findClear_none_iff]
      intro j _ hj2
      rw [hLi] at hj2
      exact Finset.mem_range.mpr (by omega)
    have hnone := chunk_allocate_range_none (c.afterAllocs c.Len) 0
      ((c.afterAllocs c.Len).Len - 1) (by omega) (by omega) hfc
    rw [chunk_allocate_unrestricted (c.afterAllocs c.Len) (by omega), hnone]

/-- Concrete instantiation of the saturation theorem: 10.1.0.0/30 split
into /32s (capacity 4). -/
theorem allocation_saturation_witness :
    (NetworkChunk.afterAllocs ⟨⟨0x0a010000, 30, 32⟩, 32, ⟨4, ∅⟩⟩
        (NetworkChunk.Len ⟨⟨0x0a010000, 30, 32⟩, 32, ⟨4, ∅⟩⟩)).Allocate none = .noneAvail ∧
    (NetworkChunk.afterAllocs ⟨⟨0x0a010000, 30, 32⟩, 32, ⟨4, ∅⟩⟩ 2).Allocate none =
      .alloc ((NetworkChunk.afterAllocs ⟨⟨0x0a010000, 30, 32⟩, 32, ⟨4, ∅⟩⟩ 2).prefixOf 2) 2
        (NetworkChunk.afterAllocs ⟨⟨0x0a010000, 30, 32⟩, 32, ⟨4, ∅⟩⟩ 3) :=
  ⟨(allocation_saturation ⟨0x0a010000, 30, 32⟩ 32 _ (by decide)).2,
   (allocation_saturation ⟨0x0a010000, 30, 32⟩ 32 _ (by decide)).1 2 (by decide)⟩

/-- The membership verdict of a chunk Release is exactly whether ordinalOf
finds an ordinal. -/
theorem release_verdict (c : NetworkChunk) (p : Pfx) (b : Bool) (cNew : NetworkChunk)
    (h : c.Release p = some (b, cNew)) :
    b = true ↔ ∃ n, c.ordinalOf p = .found n := by
  unfold NetworkChunk.Release at h
  cases ho : c.ordinalOf p with
  | panicked =>
    rw [ho] at h
    cases h
  | notFound =>
    rw [ho] at h
    injection h with hpair
    rw [Prod.mk.injEq] at hpair
    constructor
    · intro hb
      rw [hb] at hpair
      cases hpair.1
    · rintro ⟨n, hn⟩
      cases hn
  | found n =>
    rw [ho] at h
    injection h with hpair
    rw [Prod.mk.injEq] at hpair
    exact ⟨fun _ => ⟨n, rfl⟩, fun _ => hpair.1.symm⟩

/-- The verdict of the pool-level release loop: true exactly when some
chunk of the list finds the prefix. -/
theorem releaseChunks_ok_iff (chks : List NetworkChunk) (p : Pfx) (ok : Bool)
    (chksNew : List NetworkChunk) (h : releaseChunks chks p = some (ok, chksNew)) :
    ok = true ↔ ∃ c ∈ chks, ∃ n, c.ordinalOf p = .found n := by
  induction chks generalizing ok chksNew with
  | nil =>
    simp only [releaseChunks] at h
    injection h with hpair
    rw [Prod.mk.injEq] at hpair
    rw [← hpair.1]
    simp
  | cons c rest ih =>
    simp only [releaseChunks] at h
    cases hr : c.Release p with
    | none =>
      rw [hr] at h
      cases h
    | some v =>
      obtain ⟨b, cNew⟩ := v
      rw [hr] at h
      have hverdict := release_verdict c p b cNew hr
      cases b with
      | true =>
        injection h with hpair
        rw [Prod.mk.injEq] at hpair
        rw [← hpair.1]
        simp only [List.mem_cons, true_iff]
        obtain ⟨n, hn⟩ := hverdict.mp rfl
        exact ⟨c, Or.inl rfl, n, hn⟩
      | false =>
        cases hrest : releaseChunks rest p with
        | none =>
          rw [hrest] at h
          cases h
        | some w =>
          obtain ⟨ok2, restNew⟩ := w
          rw [hrest] at h
          injection h with hpair
          rw [Prod.mk.injEq] at hpair
          rw [← hpair.1]
          rw [ih ok2 restNew hrest]
          simp only [List.mem_cons]
          constructor
          · rintro ⟨cc, hcc, n, hn⟩
            exact ⟨cc, Or.inr hcc, n, hn⟩
          · rintro ⟨cc, hcc | hcc, n, hn⟩
            · subst hcc
              have : (false : Bool) = true := hverdict.mpr ⟨n, hn⟩
              cases this
            · exact ⟨cc, hcc, n, hn⟩

/-- C8 counterexample: (a) a fresh one-block pool over 10.0.0.0/16 split
into /24s reports true when releasing 10.0.5.0/24 even though that prefix
was never issued by the pool, where the claim demands false; (b) for the
valid block fe80::/10 split into /128s, the in-block prefix
fe80::1:0:0:0:0/128 has ordinal 2^64 (not representable in a uint64), so
ordinalOf does not report not-found and Release panics instead of
returning true. -/
theorem release_claim_counterexample :
    (NetworkPool.Release ⟨[⟨⟨0x0a000000, 16, 32⟩, 24, ⟨256, ∅⟩⟩], 0, 0⟩ ⟨0x0a000500, 24, 32⟩ =
      some (true, ⟨[⟨⟨0x0a000000, 16, 32⟩, 24, ⟨256, ∅⟩⟩], 0, 0⟩)) ∧
    (NetworkChunk.ordinalOf ⟨⟨0xfe80 <<< 112, 10, 128⟩, 128, ⟨2 ^ 64 - 1, ∅⟩⟩
        ⟨0xfe80 <<< 112 + 2 ^ 64, 128, 128⟩ ≠ .notFound ∧
      NewChunk ⟨0xfe80 <<< 112, 10, 128⟩ 128 =
        .ok ⟨⟨0xfe80 <<< 112, 10, 128⟩, 128, ⟨2 ^ 64 - 1, ∅⟩⟩ ∧
      NetworkChunk.Release ⟨⟨0xfe80 <<< 112, 10, 128⟩, 128, ⟨2 ^ 64 - 1, ∅⟩⟩
        ⟨0xfe80 <<< 112 + 2 ^ 64, 128, 128⟩ = none) := by
  refine ⟨by decide, by decide, by decide, by decide⟩

/-- C8 (amended): Release returns false without effect when ordinalOf
reports not-found; when ordinalOf finds ordinal n it clears bit n and
returns true — irrespective of whether the prefix was ever allocated; when
ordinalOf reports the out-of-uint64 condition Release panics. Release is
idempotent: a second release of the same prefix returns true again with no
further state change. Pool.Release (when it returns) reports true iff some
chunk of the pool finds the prefix. -/
theorem release_semantics_amended :
    (∀ (c : NetworkChunk) (p : Pfx),
      (c.ordinalOf p = .notFound → c.Release p = some (false, c)) ∧
      (∀ n, c.ordinalOf p = .found n →
        c.Release p = some (true, ⟨c.base, c.subbits, c.allocated.unset n⟩)) ∧
      (c.ordinalOf p = .panicked → c.Release p = none)) ∧
    (∀ (c cNew : NetworkChunk) (p : Pfx),
      c.Release p = some (true, cNew) → cNew.Release p = some (true, cNew)) ∧
    (∀ (pool poolNew : NetworkPool) (p : Pfx) (ok : Bool),
      pool.Release p = some (ok, poolNew) →
      (ok = true ↔ ∃ c ∈ pool.chunks, ∃ n, c.ordinalOf p = .found n)) := by
  refine ⟨?_, ?_, ?_⟩
  · intro c p
    refine ⟨fun h => ?_, fun n h => ?_, fun h => ?_⟩ <;>
      · unfold NetworkChunk.Release
        rw [h]
  · intro c cNew p h
    unfold NetworkChunk.Release at h
    cases ho : c.ordinalOf p with
    | panicked =>
      rw [ho] at h
      cases h
    | notFound =>
      rw [ho] at h
      injection h with hpair
      rw [Prod.mk.injEq] at hpair
      cases hpair.1
    | found n =>
      rw [ho] at h
      injection h with hpair
      rw [Prod.mk.injEq] at hpair
      have hcNew : cNew = ⟨c.base, c.subbits, c.allocated.unset n⟩ := hpair.2.symm
      have ho2 : cNew.ordinalOf p = .found n := by
        rw [hcNew]
        exact ho
      unfold NetworkChunk.Release
      rw [ho2, hcNew]
      simp only [Option.some.injEq, Prod.mk.injEq, true_and]
      unfold Bitmap.unset
      simp [Finset.erase_idem]
  · intro pool poolNew p ok h
    unfold NetworkPool.Release at h
    cases hrc : releaseChunks pool.chunks p with
    | none =>
      rw [hrc] at h
      cases h
    | some v =>
      obtain ⟨b, chks⟩ := v
      rw [hrc] at h
      injection h with hpair
      rw [Prod.mk.injEq] at hpair
      rw [← hpair.1]
      exact releaseChunks_ok_iff pool.chunks p b chks hrc

/-- Concrete instantiation: releasing an allocated /24 from its block
returns true and clears the bit, and a foreign prefix reports false. -/
theorem release_semantics_amended_witness :
    NetworkChunk.Release ⟨⟨0x0a000000, 16, 32⟩, 24, ⟨256, {5}⟩⟩ ⟨0x0a000500, 24, 32⟩ =
      some (true, ⟨⟨0x0a000000, 16, 32⟩, 24, ⟨256, Finset.erase {5} 5⟩⟩) ∧
    NetworkChunk.Release ⟨⟨0x0a000000, 16, 32⟩, 24, ⟨256, {5}⟩⟩ ⟨0x0b000000, 24, 32⟩ =
      some (false, ⟨⟨0x0a000000, 16, 32⟩, 24, ⟨256, {5}⟩⟩) :=
  ⟨(release_semantics_amended.1 ⟨⟨0x0a000000, 16, 32⟩, 24, ⟨256, {5}⟩⟩ ⟨0x0a000500, 24, 32⟩).2.1
      5 (by decide),
   (release_semantics_amended.1 ⟨⟨0x0a000000, 16, 32⟩, 24, ⟨256, {5}⟩⟩ ⟨0x0b000000, 24, 32⟩).1
      (by decide)⟩

/-- C9: Pool.Release never modifies the cursor, whatever its verdict. -/
theorem release_preserves_cursor (p : NetworkPool) (pfx : Pfx) (ok : Bool)
    (pNew : NetworkPool) (h : p.Release pfx = some (ok, pNew)) :
    pNew.nextChunk = p.nextChunk ∧ pNew.nextOrdinal = p.nextOrdinal := by
  unfold NetworkPool.Release at h
  cases hrc : releaseChunks p.chunks pfx with
  | none =>
    rw [hrc] at h
    cases h
  | some v =>
    obtain ⟨b, chks⟩ := v
    rw [hrc] at h
    injection h with hpair
    rw [Prod.mk.injEq] at hpair
    rw [← hpair.2]
    exact ⟨rfl, rfl⟩

/-- Concrete instantiation of cursor preservation under Release. -/
theorem release_preserves_cursor_witness :
    NetworkPool.nextChunk ⟨[⟨⟨0x0a000000, 16, 32⟩, 24, ⟨256, Finset.erase {5} 5⟩⟩], 0, 2⟩ = 0 ∧
    NetworkPool.nextOrdinal ⟨[⟨⟨0x0a000000, 16, 32⟩, 24, ⟨256, Finset.erase {5} 5⟩⟩], 0, 2⟩ = 2 :=
  release_preserves_cursor ⟨[⟨⟨0x0a000000, 16, 32⟩, 24, ⟨256, {5}⟩⟩], 0, 2⟩ ⟨0x0a000500, 24, 32⟩
    true ⟨[⟨⟨0x0a000000, 16, 32⟩, 24, ⟨256, Finset.erase {5} 5⟩⟩], 0, 2⟩ (by decide)

/-- NewChunk fails exactly on an invalid base or an out-of-range subnet
bit count. -/
theorem newChunk_error_iff (base : Pfx) (s : Nat) :
    (∃ e, NewChunk base s = .error e) ↔
      (base.IsValid = false ∨ s < base.bits ∨ base.bitlen < s) := by
  unfold NewChunk
  by_cases hv : base.IsValid
  · rw [if_neg (by simp [hv])]
    by_cases hr : base.bitlen < s ∨ base.bits > s
    · rw [if_pos hr]
      constructor
      · intro _
        rcases hr with hr | hr
        · right
          right
          exact hr
        · right
          left
          omega
      · intro _
        exact ⟨.subnetBitsOutOfRange, rfl⟩
    · rw [if_neg hr]
      constructor
      · rintro ⟨e, he⟩
        cases he
      · intro hcond
        rcases hcond with hcond | hcond | hcond
        · rw [hv] at hcond
          cases hcond
        · omega
        · omega
  · rw [if_pos (by simp [hv])]
    constructor
    · intro _
      left
      simp only [Bool.not_eq_true] at hv
      exact hv
    · intro _
      exact ⟨.invalidBase, rfl⟩

/-- Step equations of buildChunks. -/
theorem buildChunks_nil (i : Nat) (acc : List NetworkChunk) :
    buildChunks [] i acc = .ok acc := rfl

/-- One step of the NewPool loop, written out for rewriting. -/
theorem buildChunks_cons (n : NetworkToSplit) (rest : List NetworkToSplit) (i : Nat)
    (acc : List NetworkChunk) :
    buildChunks (n :: rest) i acc =
      match n.base with
      | none => .error (.parseErr i)
      | some base =>
        match acc.find? (fun chk => base.Overlaps chk.base) with
        | some chk => .error (.overlapErr base chk.base)
        | none =>
          match NewChunk base n.size with
          | .error e => .error (.sizeErr i e)
          | .ok c => buildChunks rest (i + 1) (acc ++ [c]) := rfl

/-- Inversion of a successful buildChunks run: the accumulator is a prefix
of the result, every descriptor is accepted in order (parsed, built with
NewChunk, base masked), and no accepted base overlaps an earlier chunk. -/
theorem buildChunks_ok_inv :
    ∀ (nets : List NetworkToSplit) (i : Nat) (acc chks : List NetworkChunk),
      buildChunks nets i acc = .ok chks →
      chks.length = acc.length + nets.length ∧
      (∀ j, j < acc.length → chks[j]? = acc[j]?) ∧
      (∀ j dsc, nets[j]? = some dsc → ∃ b c, dsc.base = some b ∧
        chks[acc.length + j]? = some c ∧ NewChunk b dsc.size = .ok c ∧ c.base = b.Masked ∧
        (∀ k cPrev, k < acc.length + j → chks[k]? = some cPrev →
          b.Overlaps cPrev.base = false)) := by
  intro nets
  induction nets with
  | nil =>
    intro i acc chks h
    rw [buildChunks_nil] at h
    injection h with hacc
    subst hacc
    refine ⟨by simp, fun j hj => rfl, fun j dsc hj => ?_⟩
    rw [List.getElem?_nil] at hj
    cases hj
  | cons n rest ih =>
    intro i acc chks h
    rw [buildChunks_cons] at h
    cases hbase : n.base with
    | none =>
      simp only [hbase] at h
      cases h
    | some base =>
      simp only [hbase] at h
      cases hfind : acc.find? (fun chk => base.Overlaps chk.base) with
      | some chk =>
        simp only [hfind] at h
        cases h
      | none =>
        simp only [hfind] at h
        cases hnc : NewChunk base n.size with
        | error ce =>
          simp only [hnc] at h
          cases h
        | ok c =>
          simp only [hnc] at h
          obtain ⟨hlen, hpre, hrest⟩ := ih (i + 1) (acc ++ [c]) chks h
          have hlenacc : (acc ++ [c]).length = acc.length + 1 := by simp
          have hkeep : ∀ j, j < acc.length + 1 → chks[j]? = (acc ++ [c])[j]? := by
            intro j hj
            exact hpre j (by omega)
          have hchkc : chks[acc.length]? = some c := by
            rw [hkeep acc.length (by omega)]
            rw [List.getElem?_append_right (by omega)]
            simp
          have hnooc : ∀ k cPrev, k < acc.length → chks[k]? = some cPrev →
              base.Overlaps cPrev.base = false := by
            intro k cPrev hk hck
            have hacck : acc[k]? = some cPrev := by
              rw [← hck, hkeep k (by omega), List.getElem?_append_left hk]
            have hmem : cPrev ∈ acc := List.mem_iff_getElem?.mpr ⟨k, hacck⟩
            have := List.find?_eq_none.mp hfind cPrev hmem
            simpa using this
          refine ⟨by simp only [hlen, hlenacc, List.length_cons]; omega, ?_, ?_⟩
          · intro j hj
            rw [hpre j (by omega), List.getElem?_append_left hj]
          · intro j dsc hj
            cases j with
            | zero =>
              simp only [List.getElem?_cons_zero, Option.some.injEq] at hj
              subst hj
              refine ⟨base, c, hbase, by simpa using hchkc, hnc,
                (NewChunk_ok_inv _ _ _ hnc).2.2.2 ▸ rfl, ?_⟩
              intro k cPrev hk hck
              exact hnooc k cPrev (by omega) hck
            | succ j2 =>
              simp only [List.getElem?_cons_succ] at hj
              obtain ⟨b2, c2, hb2, hc2, hnc2, hmask2, hnoov2⟩ := hrest j2 dsc hj
              refine ⟨b2, c2, hb2, ?_, hnc2, hmask2, ?_⟩
              · rw [← hc2, hlenacc]
                congr 1
                omega
              · intro k cPrev hk hck
                exact hnoov2 k cPrev (by rw [hlenacc]; omega) hck

/-- Inversion of a failed buildChunks run: the error payload points at a
real descriptor. Parse and NewChunk failures carry the descriptor index
(offset by the starting index i); an overlap failure carries an actually
overlapping pair whose first component is the offending descriptor's
base. -/
theorem buildChunks_error_inv :
    ∀ (nets : List NetworkToSplit) (i : Nat) (acc : List NetworkChunk) (e : PoolError),
      buildChunks nets i acc = .error e →
      (∀ k, e = .parseErr k → ∃ dsc : NetworkToSplit, i ≤ k ∧
        nets[k - i]? = some dsc ∧ dsc.base = none) ∧
      (∀ k ce, e = .sizeErr k ce → ∃ (dsc : NetworkToSplit) (b : Pfx), i ≤ k ∧
        nets[k - i]? = some dsc ∧ dsc.base = some b ∧ NewChunk b dsc.size = .error ce) ∧
      (∀ b other, e = .overlapErr b other → b.Overlaps other = true ∧
        ∃ (j : Nat) (dsc : NetworkToSplit), nets[j]? = some dsc ∧ dsc.base = some b) := by
  intro nets
  induction nets with
  | nil =>
    intro i acc e h
    rw [buildChunks_nil] at h
    cases h
  | cons n rest ih =>
    intro i acc e h
    rw [buildChunks_cons] at h
    cases hbase : n.base with
    | none =>
      simp only [hbase] at h
      injection h with he
      subst he
      refine ⟨?_, ?_, ?_⟩
      · intro k hk
        injection hk with hik
        subst hik
        refine ⟨n, le_rfl, ?_, hbase⟩
        simp
      · intro k ce hk
        cases hk
      · intro b other hk
        cases hk
    | some base =>
      simp only [hbase] at h
      cases hfind : acc.find? (fun chk => base.Overlaps chk.base) with
      | some chk =>
        simp only [hfind] at h
        injection h with he
        subst he
        refine ⟨?_, ?_, ?_⟩
        · intro k hk
          cases hk
        · intro k ce hk
          cases hk
        intro b other hk
        injection hk with hb hother
        subst hb
        subst hother
        have := List.find?_some hfind
        exact ⟨by simpa using this, 0, n, by simp, hbase⟩
      | none =>
        simp only [hfind] at h
        cases hnc : NewChunk base n.size with
        | error ce =>
          simp only [hnc] at h
          injection h with he
          subst he
          refine ⟨?_, ?_, ?_⟩
          · intro k hk
            cases hk
          · intro k ce2 hk
            injection hk with hik hce
            subst hik
            subst hce
            refine ⟨n, base, le_rfl, ?_, hbase, hnc⟩
            simp
          · intro b other hk
            cases hk
        | ok c =>
          simp only [hnc] at h
          obtain ⟨hp, hs, ho⟩ := ih (i + 1) (acc ++ [c]) e h
          refine ⟨?_, ?_, ?_⟩
          · intro k hk
            obtain ⟨dsc, hik, hget, hb⟩ := hp k hk
            refine ⟨dsc, by omega, ?_, hb⟩
            rw [show k - i = (k - (i + 1)) + 1 by omega, List.getElem?_cons_succ]
            exact hget
          · intro k ce hk
            obtain ⟨dsc, b, hik, hget, hb, hnc2⟩ := hs k ce hk
            refine ⟨dsc, b, by omega, ?_, hb, hnc2⟩
            rw [show k - i = (k - (i + 1)) + 1 by omega, List.getElem?_cons_succ]
            exact hget
          · intro b other hk
            obtain ⟨hov, j, dsc, hget, hb⟩ := ho b other hk
            refine ⟨hov, j + 1, dsc, ?_, hb⟩
            rw [List.getElem?_cons_succ]
            exact hget

/-- A failed buildChunks run fails identically when more descriptors are
appended after the failing one: the first failure aborts construction. -/
theorem buildChunks_error_append :
    ∀ (nets rest : List NetworkToSplit) (i : Nat) (acc : List NetworkChunk) (e : PoolError),
      buildChunks nets i acc = .error e → buildChunks (nets ++ rest) i acc = .error e := by
  intro nets
  induction nets with
  | nil =>
    intro rest i acc e h
    rw [buildChunks_nil] at h
    cases h
  | cons n tl ih =>
    intro rest i acc e h
    rw [buildChunks_cons] at h
    rw [List.cons_append, buildChunks_cons]
    cases hbase : n.base with
    | none =>
      simp only [hbase] at h ⊢
      exact h
    | some base =>
      simp only [hbase] at h ⊢
      cases hfind : acc.find? (fun chk => base.Overlaps chk.base) with
      | some chk =>
        simp only [hfind] at h ⊢
        exact h
      | none =>
        simp only [hfind] at h ⊢
        cases hnc : NewChunk base n.size with
        | error ce =>
          simp only [hnc] at h ⊢
          exact h
        | ok c =>
          simp only [hnc] at h ⊢
          exact ih rest (i + 1) (acc ++ [c]) e h

/-- C7 counterexample: constructing a pool from 10.0.0.0/8 followed by the
overlapping 10.0.0.0/16 fails, but the resulting error carries only the
two prefixes: unlike parse and size failures it identifies no descriptor
index. -/
theorem newPool_overlap_error_no_index :
    NewPool [⟨some ⟨0x0a000000, 8, 32⟩, 8⟩, ⟨some ⟨0x0a000000, 16, 32⟩, 16⟩] =
      .error (.overlapErr ⟨0x0a000000, 16, 32⟩ ⟨0x0a000000, 8, 32⟩) ∧
    PoolError.errIndex (.overlapErr ⟨0x0a000000, 16, 32⟩ ⟨0x0a000000, 8, 32⟩) = none :=
  ⟨by decide, rfl⟩

/-- C7 (amended): NewChunk fails iff the base is invalid or the subnet bit
count is out of range. NewPool validates descriptors in input order: a
failure does not depend on descriptors after the failing one (first
failure aborts); parse and size errors identify the offending descriptor
index while overlap errors identify the two overlapping prefixes; on
success the blocks keep their input order, each built by NewChunk with its
base normalized to masked form, and no accepted base overlaps any earlier
accepted block. -/
theorem construction_validation_amended :
    (∀ (base : Pfx) (s : Nat), (∃ e, NewChunk base s = .error e) ↔
      (base.IsValid = false ∨ s < base.bits ∨ base.bitlen < s)) ∧
    (∀ (nets rest : List NetworkToSplit) (e : PoolError),
      NewPool nets = .error e → NewPool (nets ++ rest) = .error e) ∧
    (∀ (nets : List NetworkToSplit) (e : PoolError), NewPool nets = .error e →
      (∀ k, e = .parseErr k → ∃ dsc : NetworkToSplit,
        nets[k]? = some dsc ∧ dsc.base = none) ∧
      (∀ k ce, e = .sizeErr k ce → ∃ (dsc : NetworkToSplit) (b : Pfx),
        nets[k]? = some dsc ∧ dsc.base = some b ∧ NewChunk b dsc.size = .error ce) ∧
      (∀ b other, e = .overlapErr b other → b.Overlaps other = true ∧
        ∃ (j : Nat) (dsc : NetworkToSplit), nets[j]? = some dsc ∧ dsc.base = some b)) ∧
    (∀ (nets : List NetworkToSplit) (pool : NetworkPool), NewPool nets = .ok pool →
      pool.nextChunk = 0 ∧ pool.nextOrdinal = 0 ∧
      pool.chunks.length = nets.length ∧
      (∀ (j : Nat) (dsc : NetworkToSplit), nets[j]? = some dsc →
        ∃ (b : Pfx) (c : NetworkChunk), dsc.base = some b ∧
          pool.chunks[j]? = some c ∧ NewChunk b dsc.size = .ok c ∧ c.base = b.Masked ∧
          (∀ k cPrev, k < j → pool.chunks[k]? = some cPrev →
            b.Overlaps cPrev.base = false))) := by
  refine ⟨newChunk_error_iff, ?_, ?_, ?_⟩
  · intro nets rest e h
    unfold NewPool at h ⊢
    cases hb : buildChunks nets 0 [] with
    | error e2 =>
      simp only [hb] at h
      injection h with he
      subst he
      simp only [buildChunks_error_append nets rest 0 [] e2 hb]
    | ok chks =>
      simp only [hb] at h
      cases h
  · intro nets e h
    unfold NewPool at h
    cases hb : buildChunks nets 0 [] with
    | error e2 =>
      simp only [hb] at h
      injection h with he
      subst he
      obtain ⟨hp, hs, ho⟩ := buildChunks_error_inv nets 0 [] e2 hb
      refine ⟨?_, ?_, ho⟩
      · intro k hk
        obtain ⟨dsc, _, hget, hbase⟩ := hp k hk
        rw [Nat.sub_zero] at hget
        exact ⟨dsc, hget, hbase⟩
      · intro k ce hk
        obtain ⟨dsc, b, _, hget, hbase, hnc⟩ := hs k ce hk
        rw [Nat.sub_zero] at hget
        exact ⟨dsc, b, hget, hbase, hnc⟩
    | ok chks =>
      simp only [hb] at h
      cases h
  · intro nets pool h
    unfold NewPool at h
    cases hb : buildChunks nets 0 [] with
    | error e2 =>
      simp only [hb] at h
      cases h
    | ok chks =>
      simp only [hb] at h
      injection h with hpool
      obtain ⟨hlen, _, hall⟩ := buildChunks_ok_inv nets 0 [] chks hb
      have hchunks : pool.chunks = chks := by rw [← hpool]
      have hnext : pool.nextChunk = 0 ∧ pool.nextOrdinal = 0 := by
        rw [← hpool]
        exact ⟨rfl, rfl⟩
      refine ⟨hnext.1, hnext.2, ?_, ?_⟩
      · rw [hchunks, hlen]
        simp
      · intro j dsc hj
        obtain ⟨b, c, hbase, hget, hnc, hmask, hnoov⟩ := hall j dsc hj
        rw [List.length_nil, Nat.zero_add] at hget
        refine ⟨b, c, hbase, by rw [hchunks]; exact hget, hnc, hmask, ?_⟩
        intro k cPrev hk hck
        refine hnoov k cPrev (by simp; omega) ?_
        rw [← hchunks]
        exact hck

/-- Concrete instantiation: an out-of-range subnet size is rejected, and a
parse failure at index 0 aborts regardless of later descriptors. -/
theorem construction_validation_amended_witness :
    (∃ e, NewChunk ⟨0xc0a80000, 16, 32⟩ 33 = .error e) ∧
    NewPool ([⟨none, 8⟩] ++ [⟨some ⟨0x0a000000, 8, 32⟩, 8⟩]) = .error (.parseErr 0) :=
  ⟨(construction_validation_amended.1 ⟨0xc0a80000, 16, 32⟩ 33).mpr (by decide),
   construction_validation_amended.2.1 [⟨none, 8⟩] [⟨some ⟨0x0a000000, 8, 32⟩, 8⟩]
     (.parseErr 0) (by decide)⟩

/-! ### Pool allocation: scan-order machinery -/

/-- Ledger length of chunk i of the pool (0 for an out-of-range index). -/
def capOf (p : NetworkPool) (i : Nat) : Nat :=
  ((p.chunks[i]?).map NetworkChunk.Len).getD 0

/-- Ledger contents of chunk i of the pool. -/
def allocdOf (p : NetworkPool) (i : Nat) : Finset Nat :=
  ((p.chunks[i]?).map (fun c => c.allocated.allocd)).getD ∅

/-- Chunk i of the pool (a dummy chunk for an out-of-range index). -/
def chunkAt (p : NetworkPool) (i : Nat) : NetworkChunk :=
  (p.chunks[i]?).getD ⟨⟨0, 0, 0⟩, 0, ⟨0, ∅⟩⟩

/-- The chunk after its ledger marks ordinal m. -/
def chunkMark (c : NetworkChunk) (m : Nat) : NetworkChunk :=
  ⟨c.base, c.subbits, ⟨c.allocated.bits, insert m c.allocated.allocd⟩⟩

/-- The pool state after a successful allocation of ordinal m from
chunk k: the chunk's ledger marks m and the cursor advances. -/
def poolAfter (p : NetworkPool) (k m : Nat) : NetworkPool :=
  (NetworkPool.mk (p.chunks.set k (chunkMark (chunkAt p k) m))
    p.nextChunk p.nextOrdinal).setNext k m

/-- Modelled from the spec (section 4.3): the scan sequence of Allocate,
as (chunk index, low ordinal, high ordinal) triples: the right half of the
current chunk, every other chunk unrestricted in wrap-around order, then
the left half of the current chunk. -/
def specScans (p : NetworkPool) : List (Nat × Nat × Nat) :=
  [(p.nextChunk, p.nextOrdinal, capOf p p.nextChunk - 1)]
  ++ ((List.range' (p.nextChunk + 1) (p.chunks.length - (p.nextChunk + 1))
        ++ List.range p.nextChunk).map (fun j => (j, 0, capOf p j - 1)))
  ++ [(p.nextChunk, 0, p.nextOrdinal)]

/-- Modelled from the spec: the first scan of the sequence with a free
ordinal, paired with the lowest free ordinal of its range. -/
def firstFreeScan (p : NetworkPool) : List (Nat × Nat × Nat) → Option (Nat × Nat)
| [] => none
| (j, lo, hi) :: rest =>
  match findClear (allocdOf p j) lo hi with
  | some m => some (j, m)
  | none => firstFreeScan p rest

/-- The Go uint64 Len()-1 computation does not wrap for real ledger
lengths. -/
theorem u64pred_eq (n : Nat) (h1 : 1 ≤ n) (h2 : n < 2 ^ 64) : u64pred n = n - 1 := by
  unfold u64pred
  rw [show n + (2 ^ 64 - 1) = (n - 1) + 2 ^ 64 by omega, Nat.add_mod_right]
  exact Nat.mod_eq_of_lt (by omega)

theorem capOf_eq {p : NetworkPool} {i : Nat} {c : NetworkChunk}
    (h : p.chunks[i]? = some c) : capOf p i = c.Len := by
  unfold capOf
  rw [h]
  rfl

theorem allocdOf_eq {p : NetworkPool} {i : Nat} {c : NetworkChunk}
    (h : p.chunks[i]? = some c) : allocdOf p i = c.allocated.allocd := by
  unfold allocdOf
  rw [h]
  rfl

theorem chunkAt_eq {p : NetworkPool} {i : Nat} {c : NetworkChunk}
    (h : p.chunks[i]? = some c) : chunkAt p i = c := by
  unfold chunkAt
  rw [h]
  rfl

theorem firstFreeScan_append (p : NetworkPool) (xs ys : List (Nat × Nat × Nat)) :
    firstFreeScan p (xs ++ ys) =
      match firstFreeScan p xs with
      | some r => some r
      | none => firstFreeScan p ys := by
  induction xs with
  | nil => rfl
  | cons x tl ih =>
    obtain ⟨j, lo, hi⟩ := x
    simp only [List.cons_append, firstFreeScan]
    cases hfc : findClear (allocdOf p j) lo hi with
    | some m => rfl
    | none => exact ih

/-- setNext written as the cursor advance rule of the spec, for pools
whose chunk k has a real ledger length. -/
theorem setNext_eq (p2 : NetworkPool) (k m : Nat) (hk : k < p2.chunks.length)
    (hcap1 : 1 ≤ capOf p2 k) (hcap2 : capOf p2 k < 2 ^ 64) :
    p2.setNext k m =
      if capOf p2 k - 1 ≤ m then ⟨p2.chunks, (k + 1) % p2.chunks.length, 0⟩
      else ⟨p2.chunks, k, m + 1⟩ := by
  have hwrap : (if p2.chunks.length ≤ k + 1 then 0 else k + 1) = (k + 1) % p2.chunks.length := by
    by_cases hle : p2.chunks.length ≤ k + 1
    · rw [if_pos hle, show k + 1 = p2.chunks.length by omega, Nat.mod_self]
    · rw [if_neg hle, Nat.mod_eq_of_lt (by omega)]
  unfold NetworkPool.setNext
  rw [show ((p2.chunks[k]?).map NetworkChunk.Len).getD 0 = capOf p2 k from rfl]
  simp only [u64pred_eq _ hcap1 hcap2, hwrap]

/-- Correspondence between the middle loops of Allocate (unrestricted
scans over a list of chunk indices) and the spec-side scan sequence. -/
theorem scanChunks_correspondence (p : NetworkPool) (hwf : ∀ c ∈ p.chunks, 1 ≤ c.Len) :
    ∀ idxs : List Nat, (∀ i ∈ idxs, i < p.chunks.length) →
      (p.scanChunks idxs = none ∧
        firstFreeScan p (idxs.map fun j => (j, 0, capOf p j - 1)) = none) ∨
      (∃ k m, firstFreeScan p (idxs.map fun j => (j, 0, capOf p j - 1)) = some (k, m) ∧
        k < p.chunks.length ∧ m < capOf p k ∧
        p.scanChunks idxs = some (.alloc ((chunkAt p k).prefixOf m) k m (poolAfter p k m))) := by
  intro idxs
  induction idxs with
  | nil =>
    intro _
    left
    exact ⟨rfl, rfl⟩
  | cons i tl ih =>
    intro hidx
    have hi : i < p.chunks.length := hidx i (by simp)
    obtain ⟨ci, hci⟩ : ∃ ci, p.chunks[i]? = some ci := by
      rw [List.getElem?_eq_getElem hi]
      exact ⟨_, rfl⟩
    have hmem : ci ∈ p.chunks := List.mem_iff_getElem?.mpr ⟨i, hci⟩
    have hlen1 : 1 ≤ ci.Len := hwf ci hmem
    simp only [NetworkPool.scanChunks, hci, List.map_cons, firstFreeScan,
      allocdOf_eq hci, capOf_eq hci]
    cases hfc : findClear ci.allocated.allocd 0 (ci.Len - 1) with
    | some m =>
      right
      have halloc := chunk_allocate_range_some ci 0 (ci.Len - 1) m (by omega) (by omega) hfc
      have hstep : ci.Allocate none = .alloc (ci.prefixOf m) m (chunkMark ci m) := by
        rw [chunk_allocate_unrestricted ci hlen1, halloc]
        rfl
      rw [hstep]
      have hpa : poolAfter p i m =
          (NetworkPool.mk (p.chunks.set i (chunkMark ci m)) p.nextChunk p.nextOrdinal).setNext
            i m := by
        unfold poolAfter
        rw [chunkAt_eq hci]
      obtain ⟨hm0, hm1⟩ := findClear_some_bounds hfc
      refine ⟨i, m, rfl, hi, by rw [capOf_eq hci]; omega, ?_⟩
      rw [chunkAt_eq hci, hpa]
    | none =>
      have hstep : ci.Allocate none = .noneAvail := by
        rw [chunk_allocate_unrestricted ci hlen1]
        exact chunk_allocate_range_none ci 0 (ci.Len - 1) (by omega) (by omega) hfc
      rw [hstep]
      exact ih (fun j hj => hidx j (List.mem_cons_of_mem _ hj))

theorem poolAfter_eq {p : NetworkPool} {k : Nat} {c : NetworkChunk}
    (h : p.chunks[k]? = some c) (m : Nat) :
    poolAfter p k m =
      (NetworkPool.mk (p.chunks.set k ⟨c.base, c.subbits,
          ⟨c.allocated.bits, insert m c.allocated.allocd⟩⟩)
        p.nextChunk p.nextOrdinal).setNext k m := by
  unfold poolAfter chunkMark
  rw [chunkAt_eq h]

/-- Case analysis of NetworkPool.Allocate for a non-empty pool satisfying
the cursor invariant: either every scan fails and the pool reports
exhaustion unchanged, or the first scan of the spec sequence with a free
ordinal determines the result. -/
theorem pool_allocate_cases (p : NetworkPool) (hinv : PoolInv p)
    (hne : ¬p.chunks.length = 0) :
    (firstFreeScan p (specScans p) = none ∧ p.Allocate = .nothing p) ∨
    (∃ k m, firstFreeScan p (specScans p) = some (k, m) ∧
      k < p.chunks.length ∧ m < capOf p k ∧
      p.Allocate = .alloc ((chunkAt p k).prefixOf m) k m (poolAfter p k m)) := by
  obtain ⟨hwfall, hcur⟩ := hinv
  have hnil : p.chunks ≠ [] := by
    intro hwrong
    rw [hwrong] at hne
    simp at hne
  obtain ⟨hnc, hno⟩ := hcur hnil
  obtain ⟨c0, hc0⟩ : ∃ c0, p.chunks[p.nextChunk]? = some c0 := by
    rw [List.getElem?_eq_getElem hnc]
    exact ⟨_, rfl⟩
  have hmem0 : c0 ∈ p.chunks := List.mem_iff_getElem?.mpr ⟨p.nextChunk, hc0⟩
  obtain ⟨hlen1, hlen2⟩ := hwfall c0 hmem0
  have hcap0 : capOf p p.nextChunk = c0.Len := capOf_eq hc0
  have hordlt : p.nextOrdinal < c0.Len := by
    rw [show (((p.chunks[p.nextChunk]?).map NetworkChunk.Len).getD 0) = capOf p p.nextChunk
      from rfl, hcap0] at hno
    exact hno
  have hallocshape : p.Allocate =
      match c0.Allocate (some (p.nextOrdinal, c0.Len - 1)) with
      | .panicked => .panicked
      | .alloc pfx n cNew => .alloc pfx p.nextChunk n
          ((NetworkPool.mk (p.chunks.set p.nextChunk cNew)
            p.nextChunk p.nextOrdinal).setNext p.nextChunk n)
      | .noneAvail =>
        match p.scanChunks (List.range' (p.nextChunk + 1)
            (p.chunks.length - (p.nextChunk + 1)) ++ List.range p.nextChunk) with
        | some r => r
        | none =>
          match c0.Allocate (some (0, p.nextOrdinal)) with
          | .panicked => .panicked
          | .alloc pfx n cNew => .alloc pfx p.nextChunk n
              ((NetworkPool.mk (p.chunks.set p.nextChunk cNew)
                p.nextChunk p.nextOrdinal).setNext p.nextChunk n)
          | .noneAvail => .nothing p := by
    unfold NetworkPool.Allocate
    rw [if_neg hne]
    simp only [hc0, u64pred_eq c0.Len hlen1 hlen2]
  have hffshape : firstFreeScan p (specScans p) =
      match findClear c0.allocated.allocd p.nextOrdinal (c0.Len - 1) with
      | some m => some (p.nextChunk, m)
      | none =>
        match firstFreeScan p ((List.range' (p.nextChunk + 1)
            (p.chunks.length - (p.nextChunk + 1)) ++ List.range p.nextChunk).map
              (fun j => (j, 0, capOf p j - 1))) with
        | some r => some r
        | none =>
          match findClear c0.allocated.allocd 0 p.nextOrdinal with
          | some m => some (p.nextChunk, m)
          | none => none := by
    have hspec : specScans p = (p.nextChunk, p.nextOrdinal, capOf p p.nextChunk - 1) ::
        (((List.range' (p.nextChunk + 1) (p.chunks.length - (p.nextChunk + 1))
          ++ List.range p.nextChunk).map (fun j => (j, 0, capOf p j - 1)))
          ++ [(p.nextChunk, 0, p.nextOrdinal)]) := by
      unfold specScans
      simp
    rw [hspec]
    simp only [firstFreeScan, allocdOf_eq hc0, hcap0]
    cases findClear c0.allocated.allocd p.nextOrdinal (c0.Len - 1) with
    | some m => rfl
    | none =>
      rw [firstFreeScan_append]
      cases firstFreeScan p ((List.range' (p.nextChunk + 1)
          (p.chunks.length - (p.nextChunk + 1)) ++ List.range p.nextChunk).map
            (fun j => (j, 0, capOf p j - 1))) with
      | some r => rfl
      | none =>
        simp only [firstFreeScan, allocdOf_eq hc0]
  have hidxs : ∀ i ∈ List.range' (p.nextChunk + 1)
      (p.chunks.length - (p.nextChunk + 1)) ++ List.range p.nextChunk,
      i < p.chunks.length := by
    intro i hi
    rcases List.mem_append.mp hi with hi | hi
    · have := List.mem_range'_1.mp hi
      omega
    · have := List.mem_range.mp hi
      omega
  cases hfc1 : findClear c0.allocated.allocd p.nextOrdinal (c0.Len - 1) with
  | some m =>
    have halloc1 := chunk_allocate_range_some c0 p.nextOrdinal (c0.Len - 1) m
      (by omega) (by omega) hfc1
    right
    obtain ⟨hb1, hb2⟩ := findClear_some_bounds hfc1
    refine ⟨p.nextChunk, m, by rw [hffshape, hfc1], hnc, by rw [hcap0]; omega, ?_⟩
    rw [show p.Allocate = _ from hallocshape, halloc1, chunkAt_eq hc0, poolAfter_eq hc0]
  | none =>
    have halloc1 := chunk_allocate_range_none c0 p.nextOrdinal (c0.Len - 1)
      (by omega) (by omega) hfc1
    rcases scanChunks_correspondence p (fun c hc => (hwfall c hc).1) _ hidxs with
      ⟨hsc, hffs⟩ | ⟨k, m, hffs, hk, hm, hsc⟩
    · cases hfc3 : findClear c0.allocated.allocd 0 p.nextOrdinal with
      | some m =>
        have halloc3 := chunk_allocate_range_some c0 0 p.nextOrdinal m
          (Nat.zero_le _) (by omega) hfc3
        right
        obtain ⟨hb1, hb2⟩ := findClear_some_bounds hfc3
        refine ⟨p.nextChunk, m, by rw [hffshape, hfc1, hffs, hfc3], hnc,
          by rw [hcap0]; omega, ?_⟩
        rw [show p.Allocate = _ from hallocshape, halloc1, hsc, halloc3,
          chunkAt_eq hc0, poolAfter_eq hc0]
      | none =>
        have halloc3 := chunk_allocate_range_none c0 0 p.nextOrdinal
          (Nat.zero_le _) (by omega) hfc3
        left
        refine ⟨by rw [hffshape, hfc1, hffs, hfc3], ?_⟩
        rw [show p.Allocate = _ from hallocshape, halloc1, hsc, halloc3]
    · right
      refine ⟨k, m, by rw [hffshape, hfc1, hffs], hk, hm, ?_⟩
      rw [show p.Allocate = _ from hallocshape, halloc1, hsc]

/-- C2: Pool.Allocate follows exactly the specified scan order. A pool
with zero blocks returns nothing. Otherwise the scans are: current block
restricted to [nextOrdinal, capacity-1], then blocks nextChunk+1,...,
blockCount-1 and 0,...,nextChunk-1 unrestricted, then the current block
restricted to [0, nextOrdinal]; the first scan with a free ordinal wins,
yielding the lowest free ordinal of its range, and if every scan fails
the pool is exhausted and Allocate reports nothing. -/
theorem pool_allocate_scan_order (p : NetworkPool) (hinv : PoolInv p) :
    (p.chunks.length = 0 → p.Allocate = .nothing p) ∧
    (p.chunks.length ≠ 0 → firstFreeScan p (specScans p) = none →
      p.Allocate = .nothing p) ∧
    (∀ k m, p.chunks.length ≠ 0 → firstFreeScan p (specScans p) = some (k, m) →
      p.Allocate = .alloc ((chunkAt p k).prefixOf m) k m (poolAfter p k m)) := by
  refine ⟨?_, ?_, ?_⟩
  · intro hz
    unfold NetworkPool.Allocate
    rw [if_pos hz]
  · intro hne hffs
    rcases pool_allocate_cases p hinv hne with ⟨_, hA⟩ | ⟨k, m, hf, _, _, _⟩
    · exact hA
    · rw [hffs] at hf
      cases hf
  · intro k m hne hffs
    rcases pool_allocate_cases p hinv hne with ⟨hf, _⟩ | ⟨k2, m2, hf, _, _, hA⟩
    · rw [hffs] at hf
      cases hf
    · rw [hffs] at hf
      injection hf with hpair
      rw [Prod.mk.injEq] at hpair
      obtain ⟨hk2, hm2⟩ := hpair
      subst hk2
      subst hm2
      exact hA

/-- Concrete instantiation of the scan order: with the cursor on a full
chunk 1, the wrap-around scan allocates from chunk 0. -/
theorem pool_allocate_scan_order_witness :
    NetworkPool.Allocate
        ⟨[⟨⟨0x0a000000, 16, 32⟩, 16, ⟨1, ∅⟩⟩, ⟨⟨0x0a010000, 16, 32⟩, 16, ⟨1, {0}⟩⟩], 1, 0⟩ =
      .alloc
        ((chunkAt ⟨[⟨⟨0x0a000000, 16, 32⟩, 16, ⟨1, ∅⟩⟩,
            ⟨⟨0x0a010000, 16, 32⟩, 16, ⟨1, {0}⟩⟩], 1, 0⟩ 0).prefixOf 0) 0 0
        (poolAfter ⟨[⟨⟨0x0a000000, 16, 32⟩, 16, ⟨1, ∅⟩⟩,
            ⟨⟨0x0a010000, 16, 32⟩, 16, ⟨1, {0}⟩⟩], 1, 0⟩ 0 0) :=
  (pool_allocate_scan_order
      ⟨[⟨⟨0x0a000000, 16, 32⟩, 16, ⟨1, ∅⟩⟩, ⟨⟨0x0a010000, 16, 32⟩, 16, ⟨1, {0}⟩⟩], 1, 0⟩
      (by unfold PoolInv; decide)).2.2 0 0 (by decide) (by decide)

/-- The chunks and cursor of the pool state after a successful
allocation. -/
theorem poolAfter_spec (p : NetworkPool) (k m : Nat) (hk : k < p.chunks.length)
    (hcap1 : 1 ≤ capOf p k) (hcap2 : capOf p k < 2 ^ 64) :
    (poolAfter p k m).chunks = p.chunks.set k (chunkMark (chunkAt p k) m) ∧
    (capOf p k - 1 ≤ m →
      (poolAfter p k m).nextChunk = (k + 1) % p.chunks.length ∧
      (poolAfter p k m).nextOrdinal = 0) ∧
    (m < capOf p k - 1 →
      (poolAfter p k m).nextChunk = k ∧ (poolAfter p k m).nextOrdinal = m + 1) := by
  obtain ⟨ck, hck⟩ : ∃ ck, p.chunks[k]? = some ck := by
    rw [List.getElem?_eq_getElem hk]
    exact ⟨_, rfl⟩
  have hlen2 : (p.chunks.set k (chunkMark (chunkAt p k) m)).length = p.chunks.length :=
    List.length_set _ _ _
  have hcapeq : capOf ⟨p.chunks.set k (chunkMark (chunkAt p k) m),
      p.nextChunk, p.nextOrdinal⟩ k = capOf p k := by
    unfold capOf
    rw [show (NetworkPool.mk (p.chunks.set k (chunkMark (chunkAt p k) m))
        p.nextChunk p.nextOrdinal).chunks = p.chunks.set k (chunkMark (chunkAt p k) m)
      from rfl]
    rw [List.getElem?_set_eq_of_lt _ hk, hck, chunkAt_eq hck]
    rfl
  have hsn := setNext_eq ⟨p.chunks.set k (chunkMark (chunkAt p k) m),
      p.nextChunk, p.nextOrdinal⟩ k m (by simpa using hk)
    (by rw [hcapeq]; exact hcap1) (by rw [hcapeq]; exact hcap2)
  have hpA : poolAfter p k m = (NetworkPool.mk (p.chunks.set k (chunkMark (chunkAt p k) m))
      p.nextChunk p.nextOrdinal).setNext k m := rfl
  refine ⟨?_, ?_, ?_⟩
  · rw [hpA, hsn]
    split <;> rfl
  · intro hcond
    rw [hpA, hsn, if_pos (by rw [hcapeq]; omega)]
    constructor
    · show (k + 1) % (p.chunks.set k (chunkMark (chunkAt p k) m)).length = _
      rw [hlen2]
    · rfl
  · intro hcond
    rw [hpA, hsn, if_neg (by rw [hcapeq]; omega)]
    exact ⟨rfl, rfl⟩

/-- C3: after every successful Pool.Allocate that allocated ordinal m from
block k, the cursor becomes ((k+1) mod blockCount, 0) when m is the
block's last valid ordinal (capacity - 1) and (k, m+1) otherwise; a failed
Allocate leaves the cursor unchanged. -/
theorem pool_allocate_cursor_advance (p : NetworkPool) (hinv : PoolInv p) :
    (∀ pfx k m q, p.Allocate = .alloc pfx k m q →
      (m = capOf p k - 1 →
        q.nextChunk = (k + 1) % p.chunks.length ∧ q.nextOrdinal = 0) ∧
      (m < capOf p k - 1 → q.nextChunk = k ∧ q.nextOrdinal = m + 1)) ∧
    (∀ q, p.Allocate = .nothing q →
      q.nextChunk = p.nextChunk ∧ q.nextOrdinal = p.nextOrdinal) := by
  by_cases hz : p.chunks.length = 0
  · have hA : p.Allocate = .nothing p := by
      unfold NetworkPool.Allocate
      rw [if_pos hz]
    refine ⟨?_, ?_⟩
    · intro pfx k m q h
      rw [hA] at h
      cases h
    · intro q h
      rw [hA] at h
      injection h with hq
      rw [← hq]
      exact ⟨rfl, rfl⟩
  · rcases pool_allocate_cases p hinv hz with ⟨_, hA⟩ | ⟨k2, m2, _, hk2, hm2, hA⟩
    · refine ⟨?_, ?_⟩
      · intro pfx k m q h
        rw [hA] at h
        cases h
      · intro q h
        rw [hA] at h
        injection h with hq
        rw [← hq]
        exact ⟨rfl, rfl⟩
    · refine ⟨?_, ?_⟩
      · intro pfx k m q h
        rw [hA] at h
        injection h with h1 h2 h3 h4
        subst h2
        subst h3
        subst h4
        obtain ⟨ck, hck⟩ : ∃ ck, p.chunks[k2]? = some ck := by
          rw [List.getElem?_eq_getElem hk2]
          exact ⟨_, rfl⟩
        obtain ⟨hc1, hc2⟩ := hinv.1 ck (List.mem_iff_getElem?.mpr ⟨k2, hck⟩)
        have hcapk : capOf p k2 = ck.Len := capOf_eq hck
        obtain ⟨_, hfull, hpart⟩ := poolAfter_spec p k2 m2 hk2
          (by omega) (by omega)
        constructor
        · intro hme
          exact hfull (by omega)
        · intro hlt
          exact hpart hlt
      · intro q h
        rw [hA] at h
        cases h

/-- Concrete instantiation of the cursor advance: allocating the only
ordinal of a single capacity-1 chunk wraps the cursor to (0, 0). -/
theorem pool_allocate_cursor_advance_witness :
    NetworkPool.nextChunk (poolAfter ⟨[⟨⟨0x0a000000, 16, 32⟩, 16, ⟨1, ∅⟩⟩], 0, 0⟩ 0 0) =
      (0 + 1) % 1 ∧
    NetworkPool.nextOrdinal (poolAfter ⟨[⟨⟨0x0a000000, 16, 32⟩, 16, ⟨1, ∅⟩⟩], 0, 0⟩ 0 0) = 0 :=
  ((pool_allocate_cursor_advance ⟨[⟨⟨0x0a000000, 16, 32⟩, 16, ⟨1, ∅⟩⟩], 0, 0⟩
      (by unfold PoolInv; decide)).1
    ((chunkAt ⟨[⟨⟨0x0a000000, 16, 32⟩, 16, ⟨1, ∅⟩⟩], 0, 0⟩ 0).prefixOf 0) 0 0
    (poolAfter ⟨[⟨⟨0x0a000000, 16, 32⟩, 16, ⟨1, ∅⟩⟩], 0, 0⟩ 0 0) (by decide)).1 (by decide)

/-- A chunk Release keeps the ledger length. -/
theorem release_len {c cNew : NetworkChunk} {p : Pfx} {b : Bool}
    (h : c.Release p = some (b, cNew)) : cNew.Len = c.Len := by
  unfold NetworkChunk.Release at h
  cases ho : c.ordinalOf p with
  | panicked =>
    rw [ho] at h
    cases h
  | notFound =>
    rw [ho] at h
    injection h with hpair
    rw [Prod.mk.injEq] at hpair
    rw [← hpair.2]
  | found n =>
    rw [ho] at h
    injection h with hpair
    rw [Prod.mk.injEq] at hpair
    rw [← hpair.2]
    rfl

/-- The pool Release loop keeps the list length and every position's
ledger length. -/
theorem releaseChunks_len :
    ∀ (chks : List NetworkChunk) (pfx : Pfx) (ok : Bool) (chksNew : List NetworkChunk),
      releaseChunks chks pfx = some (ok, chksNew) →
      chksNew.length = chks.length ∧
      ∀ j : Nat, (chksNew[j]?).map NetworkChunk.Len = (chks[j]?).map NetworkChunk.Len := by
  intro chks
  induction chks with
  | nil =>
    intro pfx ok chksNew h
    simp only [releaseChunks] at h
    injection h with hpair
    rw [Prod.mk.injEq] at hpair
    rw [← hpair.2]
    exact ⟨rfl, fun j => rfl⟩
  | cons c rest ih =>
    intro pfx ok chksNew h
    simp only [releaseChunks] at h
    cases hr : c.Release pfx with
    | none =>
      rw [hr] at h
      cases h
    | some v =>
      obtain ⟨b, cNew⟩ := v
      rw [hr] at h
      have hlenc := release_len hr
      cases b with
      | true =>
        injection h with hpair
        rw [Prod.mk.injEq] at hpair
        rw [← hpair.2]
        refine ⟨by simp, fun j => ?_⟩
        cases j with
        | zero => simp [hlenc]
        | succ j2 => simp
      | false =>
        cases hrest : releaseChunks rest pfx with
        | none =>
          rw [hrest] at h
          cases h
        | some w =>
          obtain ⟨ok2, restNew⟩ := w
          rw [hrest] at h
          injection h with hpair
          rw [Prod.mk.injEq] at hpair
          rw [← hpair.2]
          obtain ⟨hl, hj⟩ := ih pfx ok2 restNew hrest
          refine ⟨by simp [hl], fun j => ?_⟩
          cases j with
          | zero => simp [hlenc]
          | succ j2 => simpa using hj j2

/-- NewPool establishes the cursor invariant. -/
theorem NewPool_poolInv (nets : List NetworkToSplit) (pool : NetworkPool)
    (h : NewPool nets = .ok pool) : PoolInv pool := by
  unfold NewPool at h
  cases hb : buildChunks nets 0 [] with
  | error e =>
    simp only [hb] at h
    cases h
  | ok chks =>
    simp only [hb] at h
    injection h with hpool
    obtain ⟨hlen, _, hall⟩ := buildChunks_ok_inv nets 0 [] chks hb
    rw [List.length_nil, Nat.zero_add] at hlen
    have hwf : ∀ c ∈ chks, 1 ≤ c.Len ∧ c.Len < 2 ^ 64 := by
      intro c hc
      obtain ⟨j, hj⟩ := List.mem_iff_getElem?.mp hc
      have hjlt : j < chks.length := by
        by_contra hge
        rw [List.getElem?_eq_none (by omega)] at hj
        cases hj
      obtain ⟨dsc, hdsc⟩ : ∃ dsc, nets[j]? = some dsc := by
        rw [List.getElem?_eq_getElem (by omega : j < nets.length)]
        exact ⟨_, rfl⟩
      obtain ⟨b, c2, hb2, hc2, hnc2, _, _⟩ := hall j dsc hdsc
      rw [List.length_nil, Nat.zero_add, hj] at hc2
      injection hc2 with hcc
      subst hcc
      obtain ⟨hv, hs1, hs2, hceq⟩ := NewChunk_ok_inv _ _ _ hnc2
      rw [hceq]
      show 1 ≤ (if dsc.size - b.bits < 64 then 2 ^ (dsc.size - b.bits) else 2 ^ 64 - 1) ∧
        (if dsc.size - b.bits < 64 then 2 ^ (dsc.size - b.bits) else 2 ^ 64 - 1) < 2 ^ 64
      by_cases hd : dsc.size - b.bits < 64
      · rw [if_pos hd]
        have h1 : 1 ≤ (2 : Nat) ^ (dsc.size - b.bits) := Nat.one_le_two_pow
        have h2 : (2 : Nat) ^ (dsc.size - b.bits) ≤ 2 ^ 63 :=
          Nat.pow_le_pow_right (by norm_num) (by omega)
        omega
      · rw [if_neg hd]
        omega
    rw [← hpool]
    refine ⟨hwf, fun hne => ⟨?_, ?_⟩⟩
    · show 0 < chks.length
      cases chks with
      | nil => exact absurd rfl hne
      | cons a tl => simp
    · obtain ⟨c0, hc0⟩ : ∃ c0, chks[0]? = some c0 := by
      --
        cases chks with
        | nil => exact absurd rfl hne
        | cons a tl => exact ⟨a, by simp⟩
      show 0 < ((chks[0]?).map NetworkChunk.Len).getD 0
      rw [hc0]
      have := hwf c0 (List.mem_iff_getElem?.mpr ⟨0, hc0⟩)
      show 0 < c0.Len
      omega

/-- A successful allocation preserves the cursor invariant. -/
theorem poolAfter_poolInv (p : NetworkPool) (hinv : PoolInv p) (k m : Nat)
    (hk : k < p.chunks.length) (hm : m < capOf p k) : PoolInv (poolAfter p k m) := by
  obtain ⟨hwfall, _⟩ := hinv
  obtain ⟨ck, hck⟩ : ∃ ck, p.chunks[k]? = some ck := by
    rw [List.getElem?_eq_getElem hk]
    exact ⟨_, rfl⟩
  obtain ⟨hc1, hc2⟩ := hwfall ck (List.mem_iff_getElem?.mpr ⟨k, hck⟩)
  have hcapk : capOf p k = ck.Len := capOf_eq hck
  obtain ⟨hchunks, hfull, hpart⟩ := poolAfter_spec p k m hk (by omega) (by omega)
  have hlenq : (poolAfter p k m).chunks.length = p.chunks.length := by
    rw [hchunks, List.length_set]
  have hwfq : ∀ c ∈ (poolAfter p k m).chunks, 1 ≤ c.Len ∧ c.Len < 2 ^ 64 := by
    intro c hc
    rw [hchunks] at hc
    rcases List.mem_or_eq_of_mem_set hc with hc | hc
    · exact hwfall c hc
    · subst hc
      rw [show (chunkMark (chunkAt p k) m).Len = (chunkAt p k).Len from rfl, chunkAt_eq hck]
      exact ⟨hc1, hc2⟩
  refine ⟨hwfq, fun hne => ?_⟩
  have hlenpos : 0 < p.chunks.length := by omega
  by_cases hcond : capOf p k - 1 ≤ m
  · obtain ⟨hq1, hq2⟩ := hfull hcond
    have hltq : (poolAfter p k m).nextChunk < (poolAfter p k m).chunks.length := by
      rw [hq1, hlenq]
      exact Nat.mod_lt _ hlenpos
    refine ⟨hltq, ?_⟩
    obtain ⟨cq, hcq⟩ : ∃ cq, (poolAfter p k m).chunks[(poolAfter p k m).nextChunk]? = some cq := by
      rw [List.getElem?_eq_getElem hltq]
      exact ⟨_, rfl⟩
    rw [hq2, hcq]
    have := hwfq cq (List.mem_iff_getElem?.mpr ⟨_, hcq⟩)
    show 0 < cq.Len
    omega
  · obtain ⟨hq1, hq2⟩ := hpart (by omega)
    refine ⟨by rw [hq1, hlenq]; exact hk, ?_⟩
    have hset : (poolAfter p k m).chunks[k]? = some (chunkMark (chunkAt p k) m) := by
      rw [hchunks]
      exact List.getElem?_set_eq_of_lt _ hk
    rw [hq2, hq1, hset]
    show m + 1 < (chunkMark (chunkAt p k) m).Len
    rw [show (chunkMark (chunkAt p k) m).Len = (chunkAt p k).Len from rfl, chunkAt_eq hck]
    omega

/-- Pool Release preserves the cursor invariant. -/
theorem release_poolInv (p : NetworkPool) (hinv : PoolInv p) (pfx : Pfx) (ok : Bool)
    (q : NetworkPool) (h : p.Release pfx = some (ok, q)) : PoolInv q := by
  unfold NetworkPool.Release at h
  cases hrc : releaseChunks p.chunks pfx with
  | none =>
    rw [hrc] at h
    cases h
  | some v =>
    obtain ⟨b, chks⟩ := v
    rw [hrc] at h
    injection h with hpair
    rw [Prod.mk.injEq] at hpair
    obtain ⟨hb, hq⟩ := hpair
    obtain ⟨hlen, hmap⟩ := releaseChunks_len p.chunks pfx b chks hrc
    rw [← hq]
    constructor
    · intro c hc
      obtain ⟨j, hj⟩ := List.mem_iff_getElem?.mp hc
      have hm := hmap j
      rw [hj] at hm
      cases hpj : p.chunks[j]? with
      | none =>
        rw [hpj] at hm
        cases hm
      | some c2 =>
        rw [hpj] at hm
        injection hm with hLen
        have := hinv.1 c2 (List.mem_iff_getElem?.mpr ⟨j, hpj⟩)
        omega
    · intro hne
      have hnep : p.chunks ≠ [] := by
        intro h0
        apply hne
        show chks = []
        rw [← List.length_eq_zero, hlen, h0]
        rfl
      obtain ⟨hnc, hno⟩ := hinv.2 hnep
      refine ⟨by show p.nextChunk < chks.length; omega, ?_⟩
      show p.nextOrdinal < ((chks[p.nextChunk]?).map NetworkChunk.Len).getD 0
      rw [hmap p.nextChunk]
      exact hno

/-- C10: the cursor-bounds invariant (nextChunk in range, nextOrdinal
within the current chunk's ledger) holds for every freshly constructed
pool and is preserved by Allocate (successful or not) and Release; under
it, Allocate never reaches a panic (out-of-range scan range or chunk
index). -/
theorem cursor_bounds_invariant :
    (∀ (nets : List NetworkToSplit) (pool : NetworkPool),
      NewPool nets = .ok pool → PoolInv pool) ∧
    (∀ p : NetworkPool, PoolInv p →
      ¬p.Allocate = .panicked ∧
      (∀ pfx k m q, p.Allocate = .alloc pfx k m q → PoolInv q) ∧
      (∀ q, p.Allocate = .nothing q → PoolInv q) ∧
      (∀ pfx ok q, p.Release pfx = some (ok, q) → PoolInv q)) := by
  refine ⟨NewPool_poolInv, ?_⟩
  intro p hinv
  by_cases hz : p.chunks.length = 0
  · have hA : p.Allocate = .nothing p := by
      unfold NetworkPool.Allocate
      rw [if_pos hz]
    refine ⟨?_, ?_, ?_, ?_⟩
    · rw [hA]
      intro hcon
      cases hcon
    · intro pfx k m q h
      rw [hA] at h
      cases h
    · intro q h
      rw [hA] at h
      injection h with hq
      rw [← hq]
      exact hinv
    · intro pfx ok q h
      exact release_poolInv p hinv pfx ok q h
  · rcases pool_allocate_cases p hinv hz with ⟨_, hA⟩ | ⟨k2, m2, _, hk2, hm2, hA⟩
    · refine ⟨?_, ?_, ?_, ?_⟩
      · rw [hA]
        intro hcon
        cases hcon
      · intro pfx k m q h
        rw [hA] at h
        cases h
      · intro q h
        rw [hA] at h
        injection h with hq
        rw [← hq]
        exact hinv
      · intro pfx ok q h
        exact release_poolInv p hinv pfx ok q h
    · refine ⟨?_, ?_, ?_, ?_⟩
      · rw [hA]
        intro hcon
        cases hcon
      · intro pfx k m q h
        rw [hA] at h
        injection h with h1 h2 h3 h4
        subst h2
        subst h3
        rw [← h4]
        exact poolAfter_poolInv p hinv k2 m2 hk2 hm2
      · intro q h
        rw [hA] at h
        cases h
      · intro pfx ok q h
        exact release_poolInv p hinv pfx ok q h

/-- Concrete instantiation of the invariant theorem: the invariant holds
for a freshly built one-block pool and its Allocate cannot panic. -/
theorem cursor_bounds_invariant_witness :
    PoolInv ⟨[⟨⟨0x0a000000, 16, 32⟩, 24, ⟨256, ∅⟩⟩], 0, 0⟩ ∧
    ¬NetworkPool.Allocate ⟨[⟨⟨0x0a000000, 16, 32⟩, 24, ⟨256, ∅⟩⟩], 0, 0⟩ = .panicked :=
  ⟨cursor_bounds_invariant.1 [⟨some ⟨0x0a000000, 16, 32⟩, 24⟩]
      ⟨[⟨⟨0x0a000000, 16, 32⟩, 24, ⟨256, ∅⟩⟩], 0, 0⟩ (by decide),
   (cursor_bounds_invariant.2 ⟨[⟨⟨0x0a000000, 16, 32⟩, 24, ⟨256, ∅⟩⟩], 0, 0⟩
      (by unfold PoolInv; decide)).1⟩

-- Sanity checks: the embedding reproduces the behavior exercised by the
-- repository's Go tests (TestChunkAllocate, TestNetworkPool, the
-- Len=MaxUint64 wide-address test, and overlap rejection).
example : (Pfx.IsValid ⟨0x0a000000, 16, 32⟩) = true := by decide

example :
    NewChunk ⟨0x0a010000, 16, 32⟩ 20 =
      .ok ⟨⟨0x0a010000, 16, 32⟩, 20, ⟨16, ∅⟩⟩ := by decide

example :
    (NetworkChunk.prefixOf ⟨⟨0x0a010000, 16, 32⟩, 20, ⟨16, ∅⟩⟩ 3) =
      ⟨0x0a013000, 20, 32⟩ := by decide

example :
    (NetworkChunk.ordinalOf ⟨⟨0x0a010000, 16, 32⟩, 20, ⟨16, ∅⟩⟩ ⟨0x0a013000, 20, 32⟩) =
      .found 3 := by decide

-- Wide IPv6 case, mirroring the Len=MaxUint64 test: aaaa::/16 split into /80s.
example :
    (NetworkChunk.prefixOf ⟨⟨0xaaaa <<< 112, 16, 128⟩, 80, ⟨2 ^ 64 - 1, ∅⟩⟩ (2 ^ 64 - 2)) =
      ⟨0xaaaafffffffffffffffe <<< 48, 80, 128⟩ := by decide

-- Two single-prefix chunks: first allocation comes from chunk 0 and the cursor
-- advances to chunk 1.
example :
    (NetworkPool.Allocate
        ⟨[⟨⟨0x0a000000, 16, 32⟩, 16, ⟨1, ∅⟩⟩, ⟨⟨0x0a010000, 16, 32⟩, 16, ⟨1, ∅⟩⟩], 0, 0⟩) =
      .alloc ⟨0x0a000000, 16, 32⟩ 0 0
        ⟨[⟨⟨0x0a000000, 16, 32⟩, 16, ⟨1, {0}⟩⟩, ⟨⟨0x0a010000, 16, 32⟩, 16, ⟨1, ∅⟩⟩], 1, 0⟩ := by
  decide

-- With chunk 1 current but full and chunk 0 free, the wrap-around scan finds chunk 0.
example :
    (NetworkPool.Allocate
        ⟨[⟨⟨0x0a000000, 16, 32⟩, 16, ⟨1, ∅⟩⟩, ⟨⟨0x0a010000, 16, 32⟩, 16, ⟨1, {0}⟩⟩], 1, 0⟩) =
      .alloc ⟨0x0a000000, 16, 32⟩ 0 0
        ⟨[⟨⟨0x0a000000, 16, 32⟩, 16, ⟨1, {0}⟩⟩, ⟨⟨0x0a010000, 16, 32⟩, 16, ⟨1, {0}⟩⟩], 1, 0⟩ := by
  decide

-- Exhausted pool.
example :
    (NetworkPool.Allocate
        ⟨[⟨⟨0x0a000000, 16, 32⟩, 16, ⟨1, {0}⟩⟩, ⟨⟨0x0a010000, 16, 32⟩, 16, ⟨1, {0}⟩⟩], 1, 0⟩) =
      .nothing ⟨[⟨⟨0x0a000000, 16, 32⟩, 16, ⟨1, {0}⟩⟩, ⟨⟨0x0a010000, 16, 32⟩, 16, ⟨1, {0}⟩⟩], 1, 0⟩ := by
  decide

-- Release of a member prefix reports true and clears the bit; cursor untouched.
example :
    (NetworkPool.Release
        ⟨[⟨⟨0x0a000000, 16, 32⟩, 16, ⟨1, {0}⟩⟩, ⟨⟨0x0a010000, 16, 32⟩, 16, ⟨1, {0}⟩⟩], 1, 0⟩
        ⟨0x0a010000, 16, 32⟩) =
      some (true,
        ⟨[⟨⟨0x0a000000, 16, 32⟩, 16, ⟨1, {0}⟩⟩, ⟨⟨0x0a010000, 16, 32⟩, 16, ⟨1, ∅⟩⟩], 1, 0⟩) := by
  decide

-- NewPool mirroring TestNewChunk plus overlap rejection.
example :
    (NewPool [⟨some ⟨0x0a000000, 8, 32⟩, 8⟩, ⟨some ⟨0x0a000000, 16, 32⟩, 16⟩]) =
      .error (.overlapErr ⟨0x0a000000, 16, 32⟩ ⟨0x0a000000, 8, 32⟩) := by decide

end Ipam
